import Mathlib

/-!
Verification development for the query-planner core of a federated GraphQL
gateway (supergraph parsing, query-graph construction, the path-finding
walker, and query-plan synthesis).

The TypeScript sources are shallowly embedded below:

* `graph.ts`    — `Node`, `Move`, `Edge`, `Graph`, `Selection`, `joinByKeys`,
                  `connectEntities`;
* `schema.ts`   — `TypeKind`, `Subgraph`, `ObjectType`, `ObjectTypeField`,
                  `JoinType`, `JoinField`;
* `selection-resolver.ts` — `SelectionResolver.resolve`,
                  `resolveSelectionSetNode`, `resolveFieldNode`, `sort`;
* `parse.ts`    — the post-AST part of `parseSupergraph`
                  (`buildGraphFromSubgraph`, merging, `joinByKeys`);
* `walker.ts`   — `walkQuery`, `findDirectPaths`, `findIndirectPaths`,
                  `canSatisfyEdge`, `validateFieldRequirement`,
                  `OperationPath`, `findBestPath`, `findBestPathsPerSubgraph`,
                  `calculateCost`;
* `plan.ts`     — `generateQueryPlan`, `findEntityRequirements`,
                  `groupPathByService`, `createEntityFetchNode`.

JavaScript reference identity of `Node`/`Edge` objects is modelled by a
unique numeric id assigned at creation time; JavaScript `Map`s are modelled
by insertion-ordered association lists; mutable in-place updates are turned
into explicit state passing.  The mutually recursive walker functions, whose
termination is not syntactically evident in the source, are step-indexed by
an explicit fuel parameter; running out of fuel is an `Except.error` distinct
from every error the source can raise.  Machine numbers: all costs in the
source are small non-negative integers, embedded as `Nat`.
-/

namespace QP

/-- TypeKind from schema.ts (enum TypeKind). -/
inductive TypeKind where
  | objectType
  | interfaceType
  | enumType
  | unionType
  | inputObjectType
  | scalarType
deriving DecidableEq, Repr

/-- Node from graph.ts: `{ index, subgraphId, typeName, typeKind }`.
`index` is the unique index in the graph; object identity of nodes is
modelled by structural equality (distinct nodes always differ in `index`
within one graph). -/
structure Node where
  index : Nat
  subgraphId : String
  typeName : String
  typeKind : TypeKind
deriving DecidableEq, Repr

/-- SelectionNode from graph.ts: `Field | Fragment`.
`Field = { kind: "field", typeName, fieldName, selectionSet: null | Array }`,
`Fragment = { kind: "fragment", typeName, selectionSet }`. -/
inductive SelectionNode where
  | field (typeName : String) (fieldName : String)
      (selectionSet : Option (List SelectionNode))
  | fragment (typeName : String) (selectionSet : List SelectionNode)
deriving Repr

/-- Selection from graph.ts: `{ typeName, keyFieldsString, selectionSet }`. -/
structure Selection where
  typeName : String
  keyFieldsString : String
  selectionSet : List SelectionNode
deriving Repr

mutual

/-- Element-wise part of `Selection#_selectionSetEqual` from graph.ts:
compares `kind`, `typeName`, `fieldName`, then the nested `selectionSet`s
(recursing when both are arrays, comparing nullability otherwise; in the
source `null === null` is `true` and `array === null` is `false`). -/
def selectionNodeEqual : SelectionNode → SelectionNode → Bool
  | .field t1 f1 s1, .field t2 f2 s2 =>
    t1 == t2 && f1 == f2 &&
      (match s1, s2 with
       | some l1, some l2 => selectionSetEqual l1 l2
       | none, none => true
       | _, _ => false)
  | .fragment t1 s1, .fragment t2 s2 => t1 == t2 && selectionSetEqual s1 s2
  | _, _ => false

/-- List part of `Selection#_selectionSetEqual` from graph.ts: false when
lengths differ, otherwise index-wise comparison. -/
def selectionSetEqual : List SelectionNode → List SelectionNode → Bool
  | [], [] => true
  | a :: as, b :: bs => selectionNodeEqual a b && selectionSetEqual as bs
  | _, _ => false

end

/-- Selection#equals from graph.ts: typeName must match, then either the
raw `keyFieldsString`s match verbatim (fast path) or the canonically sorted
selection sets are structurally equal. -/
def Selection.equals (s other : Selection) : Bool :=
  if s.typeName != other.typeName then false
  else if s.keyFieldsString == other.keyFieldsString then true
  else selectionSetEqual s.selectionSet other.selectionSet

/-- Move from graph.ts: the closed tagged variant
`FieldMove | EntityMove | AbstractMove | InterfaceObjectMove`.
`FieldMove` carries `isList` (constructed in parse.ts from
`isListTypeNode(field.type)` and consumed by plan.ts when emitting `"@"`
segments in Flatten paths). -/
inductive Move where
  | fieldMove (fieldName : String) (typeName : String) (typeKind : TypeKind)
      (isList : Bool)
  | entityMove
  | abstractMove (fromTypeName : String) (fromTypeKind : TypeKind)
      (toTypeName : String) (toTypeKind : TypeKind)
  | interfaceObjectMove (fromTypeName : String) (fromTypeKind : TypeKind)
      (toTypeName : String)
deriving Repr

/-- Edge from graph.ts: `{ head, tail, move, requirement }`.  `eid` models
JavaScript reference identity of the edge object (the walker compares edges
with `===`); every `new Edge(...)` registered in a graph receives a fresh
`eid`. -/
structure Edge where
  eid : Nat
  head : Node
  tail : Node
  move : Move
  requirement : Option Selection
deriving Repr

/-! Canonical sort of selection sets (`SelectionResolver#sort` in
selection-resolver.ts).  The source sorts with a JavaScript comparator:
fields before fragments; fields keyed by `"<typeName>.<fieldName>"`,
fragments keyed by `typeName`, keys compared with `localeCompare`.
`localeCompare` is embedded as code-point lexicographic comparison (the
planner only compares ASCII GraphQL names), and the ES2019 stable
`Array#sort` as a stable insertion sort. -/

/-- Code-point lexicographic comparison of character lists. -/
def charsLe : List Char → List Char → Bool
  | [], _ => true
  | _ :: _, [] => false
  | c :: cs, d :: ds =>
    if c.toNat < d.toNat then true
    else if d.toNat < c.toNat then false
    else charsLe cs ds

/-- Code-point lexicographic comparison of strings (model of
`String.prototype.localeCompare` returning a non-positive value). -/
def strLeb (a b : String) : Bool := charsLe a.data b.data

/-- Sort rank of a selection node: fields (0) before fragments (1), fields
keyed by `"<typeName>.<fieldName>"`, fragments keyed by `typeName`. -/
def selRank : SelectionNode → Nat × String
  | .field tn fn _ => (0, tn ++ "." ++ fn)
  | .fragment tn _ => (1, tn)

/-- Boolean comparator for the canonical sort: lexicographic on
(`kind`, key). -/
def selLeb (a b : SelectionNode) : Bool :=
  if (selRank a).1 < (selRank b).1 then true
  else if (selRank b).1 < (selRank a).1 then false
  else strLeb (selRank a).2 (selRank b).2

/-- One step of stable insertion sort with comparator `selLeb`. -/
def orderedInsertSel (x : SelectionNode) : List SelectionNode → List SelectionNode
  | [] => [x]
  | y :: ys => if selLeb x y then x :: y :: ys else y :: orderedInsertSel x ys

/-- SelectionResolver#sort from selection-resolver.ts, as a stable insertion
sort with comparator `selLeb`. -/
def sortSelectionSet (l : List SelectionNode) : List SelectionNode :=
  l.foldr orderedInsertSel []

/-! Schema data model (schema.ts and join-directives.ts). -/

/-- JoinType from join-directives.ts: the semantic content of a
`@join__type` directive. -/
structure JoinType where
  graph : String
  key : Option String
  extension : Bool
  resolvable : Bool
  isInterfaceObject : Bool
deriving DecidableEq, Repr

/-- JoinField from join-directives.ts: the semantic content of a
`@join__field` directive. -/
structure JoinField where
  graph : Option String
  requires : Option String
  provides : Option String
  type : Option String
  external : Bool
  override : Option String
  usedOverridden : Bool
deriving DecidableEq, Repr

/-- ObjectTypeField from schema.ts: `{ name, type, isList, join }`. -/
structure ObjectTypeField where
  name : String
  type : String
  isList : Bool
  join : JoinField
deriving DecidableEq, Repr

/-- ObjectType from schema.ts: `{ name, fields, join }`. -/
structure ObjectType where
  name : String
  fields : List ObjectTypeField
  join : List JoinType
deriving DecidableEq, Repr

/-- Subgraph from schema.ts: `{ graphId, types, entityTypes }`.  The `types`
`Map` and the `entityTypes` `Set` are insertion-ordered association
list / list. -/
structure Subgraph where
  graphId : String
  types : List (String × ObjectType)
  entityTypes : List String
deriving DecidableEq, Repr

/-- Insertion-ordered `Map#get`. -/
def assocGet {α : Type} (m : List (String × α)) (k : String) : Option α :=
  (m.find? (fun p => p.1 == k)).map (fun p => p.2)

/-! GraphQL selection-set AST, the output type of `parseFields` and the
input of `SelectionResolver#resolveSelectionSetNode`.  Mirrors the
graphql-js `SelectionSetNode` shape restricted to what the planner reads:
a field has a name and an optional nested selection set; inline fragments
and fragment spreads are carried so the resolver can reject them. -/
inductive ASTSelection where
  | field (name : String) (selectionSet : Option (List ASTSelection))
  | inlineFragment (typeCondition : String) (selectionSet : List ASTSelection)
  | fragmentSpread (name : String)
deriving Repr

/-- Left brace character, written by code point to keep braces out of
literals. -/
def lbrace : Char := Char.ofNat 123

/-- Right brace character. -/
def rbrace : Char := Char.ofNat 125

/-- Tokenizer for key-fields strings: braces are single-character tokens,
whitespace separates, any other maximal run of characters is a name token. -/
def tokenizeFields (s : String) : List String :=
  let step := fun (st : List String × List Char) (c : Char) =>
    let (toks, cur) := st
    if c == ' ' || c == '\n' || c == '\t' || c == ',' then
      (if cur.isEmpty then toks else toks ++ [String.mk cur.reverse], [])
    else if c == lbrace || c == rbrace then
      ((if cur.isEmpty then toks else toks ++ [String.mk cur.reverse])
        ++ [String.mk [c]], [])
    else
      (toks, c :: cur)
  let (toks, cur) := s.data.foldl step ([], [])
  if cur.isEmpty then toks else toks ++ [String.mk cur.reverse]

/-- Parser worker: reads a run of selections (`name` optionally followed by
a braced nested selection set) until a closing brace or the end of input.
Fuel-indexed; the callers pass the token count plus one. -/
def parseSelections (fuel : Nat) (toks : List String) :
    Except String (List ASTSelection × List String) :=
  match fuel with
  | 0 => .error "parseFields: out of fuel"
  | fuel + 1 =>
    match toks with
    | [] => .ok ([], [])
    | t :: rest =>
      if t == String.mk [rbrace] then .ok ([], toks)
      else if t == String.mk [lbrace] then .error "parseFields: unexpected brace"
      else
        match rest with
        | t2 :: rest2 =>
          if t2 == String.mk [lbrace] then
            match parseSelections fuel rest2 with
            | .error e => .error e
            | .ok (inner, rem) =>
              match rem with
              | close :: rem2 =>
                if close == String.mk [rbrace] then
                  match parseSelections fuel rem2 with
                  | .error e => .error e
                  | .ok (sibs, rem3) =>
                    .ok (ASTSelection.field t (some inner) :: sibs, rem3)
                else .error "parseFields: expected closing brace"
              | [] => .error "parseFields: expected closing brace"
          else
            match parseSelections fuel rest with
            | .error e => .error e
            | .ok (sibs, rem) => .ok (ASTSelection.field t none :: sibs, rem)
        | [] => .ok ([ASTSelection.field t none], [])

/-- Modelled from the spec: `parseFields` (imported by
selection-resolver.ts from `../subgraph/helpers`, not under src/) parses a
key-fields string as a GraphQL selection set — "parse `keyFieldsString` as a
GraphQL selection set".  Plain fields and nested braced selection sets are
supported; a syntax error is an `Except.error` like the library throw. -/
def parseFields (keyFields : String) : Except String (List ASTSelection) :=
  let toks := tokenizeFields keyFields
  match parseSelections (toks.length + 1) toks with
  | .error e => .error e
  | .ok (sels, rem) =>
    if rem.isEmpty then .ok sels else .error "parseFields: trailing tokens"

/-- SelectionResolver#resolveFieldNode from selection-resolver.ts: silently
drops `__typename` (returning no node), looks the field up in the
subgraph's type table (`invariant` throws become errors), recurses into a
nested selection set against the field's declared type, and yields the
resolved node.  The source's mutual recursion with
`resolveSelectionSetNode` is unrolled here: the selection-set loop that
dispatches on the nested selections (rejecting fragments) is inlined at
each nesting level, and the recursion is step-indexed by a fuel parameter
that decreases with nesting depth only, so the definition reduces inside
the kernel.  The source appends into a caller-supplied accumulator array;
here the per-field contribution (zero or one node) is returned and the
caller appends. -/
def resolveFieldNode : Nat → Subgraph → String → String →
    Option (List ASTSelection) → Except String (List SelectionNode)
  | 0, _, _, _, _ => .error "resolver: out of fuel"
  | fuel + 1, sg, typeName, fieldName, sub? =>
    if fieldName == "__typename" then .ok []
    else
      match assocGet sg.types typeName with
      | none => .error ("Invariant failed: Type \"" ++ typeName ++ "\" is not defined.")
      | some typeState =>
        match typeState.fields.find? (fun f => f.name == fieldName) with
        | none => .error ("Invariant failed: Field \"" ++ fieldName ++ "\" is not defined.")
        | some field =>
          match sub? with
          | some ss => do
            let nested ← ss.foldlM
              (fun acc s =>
                match s with
                | .inlineFragment _ _ => .error "Inline fragment is not supported."
                | .fragmentSpread _ => .error "Fragment spread is not supported."
                | .field n nsub? => do
                  let ns ← resolveFieldNode fuel sg field.type n nsub?
                  .ok (acc ++ ns))
              []
            .ok [SelectionNode.field typeName fieldName (some (sortSelectionSet nested))]
          | none =>
            .ok [SelectionNode.field typeName fieldName none]

/-- One element of the selection-set loop of
`SelectionResolver#resolveSelectionSetNode`: dispatch on the selection
kind, rejecting fragments and appending the field's resolution. -/
def resolveSelectionStep (fuel : Nat) (sg : Subgraph) (typeName : String)
    (acc : List SelectionNode) (s : ASTSelection) :
    Except String (List SelectionNode) :=
  match s with
  | .inlineFragment _ _ => .error "Inline fragment is not supported."
  | .fragmentSpread _ => .error "Fragment spread is not supported."
  | .field n sub? => do
    let ns ← resolveFieldNode fuel sg typeName n sub?
    .ok (acc ++ ns)

/-- SelectionResolver#resolveSelectionSetNode from selection-resolver.ts:
walks the AST selections in order, appending the resolution of each field
into the accumulator (`selectionSet` parameter in the source), throwing on
inline fragments and fragment spreads, and returns the canonically sorted
accumulator. -/
def resolveSelectionSetNode (fuel : Nat) (sg : Subgraph) (typeName : String)
    (sels : List ASTSelection) (acc : List SelectionNode) :
    Except String (List SelectionNode) := do
  let out ← sels.foldlM (resolveSelectionStep fuel sg typeName) acc
  .ok (sortSelectionSet out)

/-- SelectionResolver#resolve from selection-resolver.ts: looks the type up
(`invariant`), parses the key-fields string, resolves the selection set and
wraps it in a `Selection` that remembers the raw string.  The memoizing
cache of the source only affects object identity, never the value, and is
omitted. -/
def SelectionResolver.resolve (fuel : Nat) (sg : Subgraph) (typeName : String)
    (keyFields : String) : Except String Selection :=
  match assocGet sg.types typeName with
  | none => .error ("Invariant failed: Expected an object/interface type when resolving keyFields of " ++ typeName)
  | some _ => do
    let sels ← parseFields keyFields
    let nodes ← resolveSelectionSetNode fuel sg typeName sels []
    .ok ⟨typeName, keyFields, nodes⟩

/-! Graph from graph.ts.  `nodesByTypeIndex` and `edgesByHeadTypeIndex` are
the two indexes the modelled operations read; `edgesByTailTypeIndex` is
maintained by the source but never read by any operation the claims touch
and is omitted.  `nextEdgeId` dispenses the reference-identity ids of
edges. -/
structure Graph where
  id : String
  nodesByTypeIndex : List (List Node)
  edgesByHeadTypeIndex : List (List Edge)
  typeNameToNodeIndexes : List (String × List Nat)
  nextEdgeId : Nat
deriving Repr

/-- Fresh graph (`new Graph(id)`). -/
def Graph.empty (id : String) : Graph := ⟨id, [], [], [], 0⟩

/-- Update the n-th entry of a list in place. -/
def listSet {α : Type} (l : List α) (n : Nat) (a : α) : List α :=
  match l, n with
  | [], _ => []
  | _ :: xs, 0 => a :: xs
  | x :: xs, n + 1 => x :: listSet xs n a

/-- Append an index under a type name in `typeNameToNodeIndexes`, creating
the entry at the end when missing (JavaScript `Map` insertion order). -/
def pushTypeNameIndex (m : List (String × List Nat)) (typeName : String)
    (idx : Nat) : List (String × List Nat) :=
  match m with
  | [] => [(typeName, [idx])]
  | (k, v) :: rest =>
    if k == typeName then (k, v ++ [idx]) :: rest
    else (k, v) :: pushTypeNameIndex rest typeName idx

/-- Graph#createNode from graph.ts (shared by `createTypeNode` and
`addNode`): appends a node slot, an empty edge bucket and the type-name
index entry. -/
def Graph.createNode (g : Graph) (graphId typeName : String)
    (typeKind : TypeKind) : Graph × Node :=
  let index := g.nodesByTypeIndex.length
  let node : Node := ⟨index, graphId, typeName, typeKind⟩
  (⟨g.id,
    g.nodesByTypeIndex ++ [[node]],
    g.edgesByHeadTypeIndex ++ [[]],
    pushTypeNameIndex g.typeNameToNodeIndexes typeName index,
    g.nextEdgeId⟩, node)

/-- Graph#createTypeNode from graph.ts: errors when a node for the type
already exists in this (sub)graph. -/
def Graph.createTypeNode (g : Graph) (typeName : String) (typeKind : TypeKind) :
    Except String (Graph × Node) :=
  match assocGet g.typeNameToNodeIndexes typeName with
  | some _ => .error ("Node for " ++ typeName ++ " already exists in subgraph " ++ g.id)
  | none => .ok (g.createNode g.id typeName typeKind)

/-- Graph#addEdge from graph.ts: pushes the edge into the bucket of its
head node (and assigns the fresh reference-identity id). -/
def Graph.addEdge (g : Graph) (head tail : Node) (move : Move)
    (requirement : Option Selection) : Graph × Edge :=
  let edge : Edge := ⟨g.nextEdgeId, head, tail, move, requirement⟩
  (⟨g.id, g.nodesByTypeIndex,
    listSet g.edgesByHeadTypeIndex head.index
      (((g.edgesByHeadTypeIndex.get? head.index).getD []) ++ [edge]),
    g.typeNameToNodeIndexes, g.nextEdgeId + 1⟩, edge)

/-- Graph#edgesOfHead from graph.ts (the "poop" consistency check of the
source always passes for graphs built by the pipeline below). -/
def Graph.edgesOfHead (g : Graph) (head : Node) : List Edge :=
  (g.edgesByHeadTypeIndex.get? head.index).getD []

/-- Graph#ensureNonOrSingleNode from graph.ts: `none` when the type has no
node yet, the node when it has exactly one, an error when it has several. -/
def Graph.ensureNonOrSingleNode (g : Graph) (typeName : String) :
    Except String (Option Node) :=
  match assocGet g.typeNameToNodeIndexes typeName with
  | none => .ok none
  | some indexes =>
    if indexes.length > 1 then
      .error ("Expected only one node for " ++ typeName ++ " in graph " ++ g.id)
    else
      .ok (((g.nodesByTypeIndex.get? ((indexes.get? 0).getD 0)).getD []).get? 0)

/-- Graph#nodesOf from graph.ts with `failIfMissing = true`. -/
def Graph.nodesOfE (g : Graph) (typeName : String) : Except String (List Node) :=
  match assocGet g.typeNameToNodeIndexes typeName with
  | none => .error ("Expected TypeNode(" ++ typeName ++ ") to be inserted first in graph " ++ g.id)
  | some indexes =>
    .ok (indexes.foldl (fun acc i => acc ++ (g.nodesByTypeIndex.get? i).getD []) [])

/-- Graph#copyFrom from graph.ts.  `addNode` mutates `node.index` in the
source; the edges of the copied graph reference the same node objects and
therefore see the updated indices.  In the pure model each copied node's
index is shifted by the number of nodes already present, and every copied
edge is rewritten accordingly (and re-registered through `addEdge`,
receiving a fresh identity in the destination graph, matching the source
where the destination's buckets are rebuilt). -/
def Graph.copyFrom (g src : Graph) : Graph :=
  let offset := g.nodesByTypeIndex.length
  let shiftNode := fun (n : Node) =>
    ({ n with index := n.index + offset } : Node)
  let g1 := src.nodesByTypeIndex.foldl
    (fun (acc : Graph) nodes =>
      nodes.foldl
        (fun (acc : Graph) n =>
          let n' := shiftNode n
          ⟨acc.id,
            acc.nodesByTypeIndex ++ [[n']],
            acc.edgesByHeadTypeIndex ++ [[]],
            pushTypeNameIndex acc.typeNameToNodeIndexes n'.typeName n'.index,
            acc.nextEdgeId⟩)
        acc)
    g
  src.edgesByHeadTypeIndex.foldl
    (fun (acc : Graph) edges =>
      edges.foldl
        (fun (acc : Graph) e =>
          (acc.addEdge (shiftNode e.head) (shiftNode e.tail) e.move
            e.requirement).1)
        acc)
    g1

/-! The post-AST part of parse.ts: building per-subgraph graphs, merging
them and joining entities by keys. -/

/-- Entry of the `entities` map built in `parseSupergraph`:
`{ key, graphId, typeName }`. -/
structure EntityEntry where
  key : String
  graphId : String
  typeName : String
deriving DecidableEq, Repr

/-- Names of the graphql-js `specifiedScalarTypes`. -/
def specifiedScalarNames : List String :=
  ["String", "Int", "Float", "Boolean", "ID"]

/-- createNodeForScalarType from parse.ts. -/
def createNodeForScalarType (g : Graph) (typeName : String) :
    Except String (Graph × Node) := do
  match ← g.ensureNonOrSingleNode typeName with
  | some existing => .ok (g, existing)
  | none => g.createTypeNode typeName TypeKind.scalarType

/-- createNodesAndEdgesForType from parse.ts: scalars get leaf nodes,
anything else is looked up in the subgraph's type table and handled as an
object type (whose handling — `createNodesAndEdgesForObjectType` in the
source — is inlined here so the recursion is structural on the fuel, which
decreases with type-nesting depth only).  Per field the edge's tail
sub-graph is created first, as `createEdgeForObjectTypeField` computes the
tail before `addEdge`; external fields are skipped. -/
def createNodesAndEdgesForType : Nat → Subgraph → Graph → String →
    Except String (Graph × Node)
  | 0, _, _, _ => .error "builder: out of fuel"
  | fuel + 1, sg, g, typeName =>
    if specifiedScalarNames.contains typeName then
      createNodeForScalarType g typeName
    else
      match assocGet sg.types typeName with
      | none => .error ("Invariant failed: Type not found: " ++ typeName)
      | some objectType => do
        match ← g.ensureNonOrSingleNode objectType.name with
        | some existing => .ok (g, existing)
        | none => do
          let (g, head) ← g.createTypeNode objectType.name TypeKind.objectType
          let g ← objectType.fields.foldlM
            (fun (g : Graph) field => do
              if field.join.external then
                .ok g
              else do
                let (g, tail) ← createNodesAndEdgesForType fuel sg g field.type
                .ok (g.addEdge head tail
                  (Move.fieldMove field.name head.typeName head.typeKind
                    field.isList) none).1)
            g
          .ok (g, head)

/-- createNodesAndEdgesForObjectType from parse.ts, for the two call sites
that start from an `ObjectType` value (the `Query` root and each entity
type): same body as the object case of `createNodesAndEdgesForType`. -/
def createNodesAndEdgesForObjectType (fuel : Nat) (sg : Subgraph) (g : Graph)
    (objectType : ObjectType) : Except String (Graph × Node) := do
  match ← g.ensureNonOrSingleNode objectType.name with
  | some existing => .ok (g, existing)
  | none => do
    let (g, head) ← g.createTypeNode objectType.name TypeKind.objectType
    let g ← objectType.fields.foldlM
      (fun (g : Graph) field => do
        if field.join.external then
          .ok g
        else do
          let (g, tail) ← createNodesAndEdgesForType fuel sg g field.type
          .ok (g.addEdge head tail
            (Move.fieldMove field.name head.typeName head.typeKind
              field.isList) none).1)
      g
    .ok (g, head)

/-- buildGraphFromSubgraph from parse.ts: start from `Query` when present,
then add every entity type. -/
def buildGraphFromSubgraph (fuel : Nat) (sg : Subgraph) :
    Except String Graph := do
  let g := Graph.empty sg.graphId
  let g ←
    match assocGet sg.types "Query" with
    | some queryType => do
      let (g, _) ← createNodesAndEdgesForObjectType fuel sg g queryType
      pure g
    | none => pure g
  sg.entityTypes.foldlM
    (fun (g : Graph) typeName => do
      match assocGet sg.types typeName with
      | none => .error ("Invariant failed: Type not found: " ++ typeName)
      | some objectType => do
        let (g, _) ← createNodesAndEdgesForObjectType fuel sg g objectType
        pure g)
    g

/-- Graph#connectEntities from graph.ts: for the nodes at `nodeIndex` and
every other node of the same type name, one entity edge per matching entity
entry of the tail's subgraph, with the requirement resolved by the tail
subgraph's selection resolver. -/
def connectEntities (fuel : Nat) (g : Graph) (nodeIndex : Nat)
    (sameTypeNameNodeIndexes : List Nat) (edgesToAdd : List (Node × Node × Option Selection))
    (entitiesOfType : List EntityEntry) (resolvers : List (String × Subgraph)) :
    Except String (List (Node × Node × Option Selection)) :=
  ((g.nodesByTypeIndex.get? nodeIndex).getD []).foldlM
    (fun acc headNode =>
      sameTypeNameNodeIndexes.foldlM
        (fun acc otherNodeIndex =>
          if nodeIndex == otherNodeIndex then .ok acc
          else
            ((g.nodesByTypeIndex.get? otherNodeIndex).getD []).foldlM
              (fun acc tailNode =>
                if !(entitiesOfType.any (fun t => t.graphId == tailNode.subgraphId)) then
                  .ok acc
                else
                  (entitiesOfType.filter
                      (fun t => t.graphId == tailNode.subgraphId)).foldlM
                    (fun acc entry => do
                      match assocGet resolvers tailNode.subgraphId with
                      | none => .error "Invariant failed: keyFieldsResolver is not defined"
                      | some resolverSubgraph => do
                        let sel ← SelectionResolver.resolve fuel resolverSubgraph
                          headNode.typeName entry.key
                        .ok (acc ++ [(headNode, tailNode, some sel)]))
                    acc)
              acc)
        acc)
    edgesToAdd

/-- Graph#joinByKeys from graph.ts: collect entity edges for every node
whose type appears in the entity table and is an object type, then add them
popping from the end of the work list (so in reverse collection order). -/
def Graph.joinByKeys (fuel : Nat) (g : Graph) (entities : List (String × List EntityEntry))
    (resolvers : List (String × Subgraph)) : Except String Graph := do
  let edgesToAdd ← (List.range g.nodesByTypeIndex.length).foldlM
    (fun (acc : List (Node × Node × Option Selection)) i =>
      match ((g.nodesByTypeIndex.get? i).getD []).get? 0 with
      | none => .error "TypeError: empty node bucket"
      | some typeNode =>
        match assocGet entities typeNode.typeName with
        | none => .ok acc
        | some entitiesOfType =>
          match assocGet g.typeNameToNodeIndexes typeNode.typeName with
          | none => .ok acc
          | some otherNodesIndexes =>
            if typeNode.typeKind != TypeKind.objectType then .ok acc
            else connectEntities fuel g i otherNodesIndexes acc entitiesOfType resolvers)
    []
  .ok (edgesToAdd.reverse.foldl
    (fun (g : Graph) e => (g.addEdge e.1 e.2.1 Move.entityMove e.2.2).1) g)

/-- Insertion-ordered `Map` ensure-then-append used for the `entities`
table of `parseSupergraph`: create the key with an empty list when absent,
then append the new entries. -/
def pushEntities (m : List (String × List EntityEntry)) (typeName : String)
    (entries : List EntityEntry) : List (String × List EntityEntry) :=
  match m with
  | [] => [(typeName, entries)]
  | (k, v) :: rest =>
    if k == typeName then (k, v ++ entries) :: rest
    else (k, v) :: pushEntities rest typeName entries

/-- The entity entries a single type contributes in one subgraph: one per
`@join__type` with `resolvable: true` and a string key (parse.ts, the loop
over `typeState.join`). -/
def entityEntriesOf (graphId : String) (typeState : ObjectType) :
    List EntityEntry :=
  typeState.join.foldl
    (fun acc joinType =>
      match joinType.key with
      | some key => if joinType.resolvable then acc ++ [⟨key, graphId, typeState.name⟩] else acc
      | none => acc)
    []

/-- Supergraph from schema.ts: graphId → Subgraph, insertion ordered. -/
def Supergraph : Type := List (String × Subgraph)

/-- The post-AST pipeline of parseSupergraph from parse.ts: build one graph
per subgraph, record entity keys and per-subgraph selection resolvers,
merge everything into the graph named "private" and join entities by keys.
The SDL → `Supergraph` front end (graphql-js `parse` plus
`parseObjectType`) is the external parsing stage; this function starts from
its output, the per-subgraph type tables. -/
def parseSupergraphCore (fuel : Nat) (sg : Supergraph) : Except String Graph := do
  let (graphs, entities) ← sg.foldlM
    (fun (st : List Graph × List (String × List EntityEntry)) p => do
      let (graphs, entities) := st
      let (graphId, subgraph) := p
      let g ← buildGraphFromSubgraph fuel subgraph
      let entities := subgraph.types.foldl
        (fun entities (tp : String × ObjectType) =>
          pushEntities entities tp.1 (entityEntriesOf graphId tp.2))
        entities
      .ok (graphs ++ [g], entities))
    ([], [])
  let merged := graphs.foldl (fun acc g => acc.copyFrom g) (Graph.empty "private")
  merged.joinByKeys fuel entities sg

/-! The walker (walker.ts). -/

/-- FieldStep from walker.ts; `Step = FieldStep` and the only kind is
"Field". -/
structure Step where
  name : String
deriving DecidableEq, Repr

/-- OperationPath from walker.ts:
`{ rootNode, edges, requiredPathsForEdges, cost }`. -/
inductive OperationPath where
  | mk (rootNode : Node) (edges : List Edge)
      (requiredPathsForEdges : List (List OperationPath)) (cost : Nat)

/-- Root node of a path. -/
def OperationPath.rootNode : OperationPath → Node
  | .mk r _ _ _ => r

/-- Edges of a path. -/
def OperationPath.edges : OperationPath → List Edge
  | .mk _ e _ _ => e

/-- Requirement sub-paths, aligned with `edges`. -/
def OperationPath.requiredPathsForEdges : OperationPath → List (List OperationPath)
  | .mk _ _ r _ => r

/-- Stored cost of a path. -/
def OperationPath.cost : OperationPath → Nat
  | .mk _ _ _ c => c

/-- calculateCost from walker.ts: `FieldMove → 1`, any other move → `10`. -/
def calculateCost (e : Edge) : Nat :=
  match e.move with
  | .fieldMove _ _ _ _ => 1
  | _ => 10

/-- OperationPath#tail from walker.ts: the last edge's tail, or the root
node for an empty path. -/
def OperationPath.tail (p : OperationPath) : Node :=
  match p.edges.getLast? with
  | some e => e.tail
  | none => p.rootNode

/-- OperationPath#advance from walker.ts: a fresh path with the edge
appended, an empty requirement bucket for it, and the edge's base cost
added. -/
def OperationPath.advance (p : OperationPath) (e : Edge) : OperationPath :=
  .mk p.rootNode (p.edges ++ [e]) (p.requiredPathsForEdges ++ [[]])
    (p.cost + calculateCost e)

/-- Append into the last requirement bucket (the in-place
`requiredPathsForLastEdge.push(...)` of the source). -/
def appendToLastBucket (l : List (List OperationPath)) (qs : List OperationPath) :
    List (List OperationPath) :=
  match l with
  | [] => []
  | [x] => [x ++ qs]
  | x :: xs => x :: appendToLastBucket xs qs

/-- Sum of the stored costs of a list of paths. -/
def sumCosts (qs : List OperationPath) : Nat :=
  qs.foldl (fun c q => c + q.cost) 0

/-- OperationPath#addRequiredPaths from walker.ts: pushes the paths into
the bucket of the last edge and adds their costs to the path's cost.  The
source throws when `edges.length !== requiredPathsForEdges.length`; both
call sites run it immediately after `advance`, where the lengths agree. -/
def OperationPath.addRequiredPaths (p : OperationPath) (qs : List OperationPath) :
    OperationPath :=
  .mk p.rootNode p.edges (appendToLastBucket p.requiredPathsForEdges qs)
    (p.cost + sumCosts qs)

/-- OperationPath#clone from walker.ts: copies root, edges and requirement
buckets but passes no cost, so the constructor default `cost = 0`
applies. -/
def OperationPath.clone (p : OperationPath) : OperationPath :=
  .mk p.rootNode p.edges p.requiredPathsForEdges 0

/-- Excluded from walker.ts: `{ graphIds, requirements, edges }` (the
`edges` component is written by the callers but never read). -/
structure Excluded where
  graphIds : List String
  requirements : List Selection
  edges : List Edge

/-- The all-empty default `Excluded`. -/
def Excluded.empty : Excluded := ⟨[], [], []⟩

/-- concatIfNotExistsString from walker.ts. -/
def concatIfNotExistsString (list : List String) (item : String) : List String :=
  if list.contains item then list else list ++ [item]

/-- concatIfNotExistsFields from walker.ts (membership up to
`Selection#equals`). -/
def concatIfNotExistsFields (list : List Selection) (item : Selection) :
    List Selection :=
  if list.any (fun f => f.equals item) then list else list ++ [item]

/-- MoveRequirement from walker.ts: a pending selection node together with
the candidate paths it must be resolvable from. -/
structure MoveRequirement where
  selection : SelectionNode
  paths : List OperationPath

/-- The field-shaped requirement `validateFieldRequirement` receives
(`MoveRequirement<Field>` in the source). -/
structure MoveRequirementF where
  fieldName : String
  selectionSet : Option (List SelectionNode)
  paths : List OperationPath

/-- One step of the findBestPathsPerSubgraph `Map`: `Map#set` keeps the
original insertion position of a key, and the source replaces the stored
path only when the new one is strictly cheaper. -/
def bestPerSubgraphUpsert (m : List (String × OperationPath))
    (p : OperationPath) : List (String × OperationPath) :=
  let k := p.tail.subgraphId
  if m.any (fun q => q.1 == k) then
    m.map (fun q => if q.1 == k && p.cost < q.2.cost then (q.1, p) else q)
  else m ++ [(k, p)]

/-- findBestPathsPerSubgraph from walker.ts: a `Map` keyed by the tail's
subgraph id, keeping the first strictly cheapest path per subgraph, values
in key-insertion order. -/
def findBestPathsPerSubgraph (paths : List OperationPath) : List OperationPath :=
  (paths.foldl bestPerSubgraphUpsert []).map (fun q => q.2)

/-- Invariant of the findBestPathsPerSubgraph fold: every stored path ends
in the subgraph it is keyed by, keys are pairwise distinct, every stored
path is a cheapest processed path for its subgraph, and every processed
path's subgraph has an entry. -/
def BPSInv (seen : List OperationPath) (m : List (String × OperationPath)) : Prop :=
  (∀ kp ∈ m, kp.2.tail.subgraphId = kp.1)
  ∧ List.Pairwise (fun a b => a.1 ≠ b.1) m
  ∧ (∀ kp ∈ m, kp.2 ∈ seen
      ∧ ∀ q ∈ seen, q.tail.subgraphId = kp.1 → kp.2.cost ≤ q.cost)
  ∧ (∀ q ∈ seen, ∃ kp ∈ m, kp.1 = q.tail.subgraphId)

/-- findBestPath from walker.ts: linear scan keeping the first strictly
cheapest path; `invariant(bestPath)` throws on an empty list. -/
def findBestPath (paths : List OperationPath) : Except String OperationPath :=
  match paths.foldl
    (fun (best : Option OperationPath) p =>
      match best with
      | none => some p
      | some b => if p.cost < b.cost then some p else some b)
    none with
  | some b => .ok b
  | none => .error "Invariant failed: No best path found"

/-- Stack entry of the `findIndirectPaths` work queue:
`(visitedGraphs, visitedRequirements, currentPath)`.  The head of the list
models the end of the source's array (the side `pop`/`push` act on). -/
def QItem : Type := List String × List Selection × OperationPath

/-- The mutually recursive walker functions, gathered in one record so the
recursion can be step-indexed: level `n + 1` implements each function with
every nested call taken from level `n`. -/
structure WalkFns where
  findDirectPaths : Graph → OperationPath → Step → Excluded →
    Except String (List OperationPath)
  findIndirectPaths : Graph → OperationPath → Step → Excluded →
    Except String (List OperationPath)
  indirectLoop : Graph → String → Step → List QItem → List OperationPath →
    Except String (List OperationPath)
  canSatisfyEdge : Graph → Edge → OperationPath → Excluded →
    Except String (Bool × List OperationPath)
  satisfyLoop : Graph → Excluded → List MoveRequirement → List OperationPath →
    Except String (Bool × List OperationPath)
  validateFieldRequirement : Graph → MoveRequirementF → Excluded →
    Except String (Option (List OperationPath × List MoveRequirement))

/-- Base level of the step-indexed walker: every call is out of fuel. -/
def errFns : WalkFns :=
  ⟨fun _ _ _ _ => .error "walker: out of fuel",
   fun _ _ _ _ => .error "walker: out of fuel",
   fun _ _ _ _ _ => .error "walker: out of fuel",
   fun _ _ _ _ => .error "walker: out of fuel",
   fun _ _ _ _ => .error "walker: out of fuel",
   fun _ _ _ => .error "walker: out of fuel"⟩

/-- One level of the step-indexed walker; each body is the direct
transcription of the corresponding walker.ts function, with recursive
calls going through the previous level `F`. -/
def mkFns (F : WalkFns) : WalkFns where
  findDirectPaths := fun graph path step excluded =>
    (graph.edgesOfHead path.tail).foldlM
      (fun acc edge =>
        match edge.move with
        | .fieldMove fieldName _ _ _ =>
          if fieldName != step.name then .ok acc
          else if path.edges.any (fun e => e.eid == edge.eid) then .ok acc
          else do
            let result ← F.canSatisfyEdge graph edge path
              ⟨concatIfNotExistsString excluded.graphIds edge.tail.subgraphId,
               excluded.requirements, []⟩
            if result.1 then
              .ok (acc ++ [(path.advance edge).addRequiredPaths result.2])
            else .ok acc
        | _ => .ok acc)
      []
  findIndirectPaths := fun graph path step excluded => do
    let found ← F.indirectLoop graph path.tail.subgraphId step
      [(excluded.graphIds, excluded.requirements, path)] []
    .ok (findBestPathsPerSubgraph found)
  indirectLoop := fun graph sourceGraphId step stack acc =>
    match stack with
    | [] => .ok acc
    | item :: rest => do
      let (visitedGraphs, visitedKeyFields, path) := item
      let (acc, stack) ← (graph.edgesOfHead path.tail).foldlM
        (fun (st : List OperationPath × List QItem) edge => do
          let (acc, stack) := st
          if visitedGraphs.contains edge.tail.subgraphId then .ok (acc, stack)
          else if edge.tail.subgraphId == sourceGraphId then .ok (acc, stack)
          else if !(match edge.move with | .entityMove => true | _ => false) then
            .ok (acc, stack)
          else if (match edge.requirement with
                   | some req => visitedKeyFields.any (fun f => f.equals req)
                   | none => false) then
            .ok (acc, stack)
          else do
            let result ← F.canSatisfyEdge graph edge path
              ⟨concatIfNotExistsString visitedGraphs edge.tail.subgraphId,
               visitedKeyFields, [edge]⟩
            if !result.1 then .ok (acc, stack)
            else do
              let newPath := (path.advance edge).addRequiredPaths result.2
              let directPaths ← F.findDirectPaths graph newPath step
                ⟨visitedGraphs, visitedKeyFields, []⟩
              if !directPaths.isEmpty then .ok (acc ++ directPaths, stack)
              else
                .ok (acc,
                  ((concatIfNotExistsString visitedGraphs edge.tail.subgraphId,
                    match edge.requirement with
                    | some req => concatIfNotExistsFields visitedKeyFields req
                    | none => visitedKeyFields,
                    newPath) : QItem) :: stack))
        (acc, rest)
      F.indirectLoop graph sourceGraphId step stack acc
  canSatisfyEdge := fun graph edge path excluded =>
    match edge.requirement with
    | none => .ok (true, [])
    | some requirement =>
      F.satisfyLoop graph excluded
        (requirement.selectionSet.map (fun s => ⟨s, [path.clone]⟩)) []
  satisfyLoop := fun graph excluded reqs acc =>
    match reqs with
    | [] => .ok (true, acc)
    | req :: rest =>
      match req.selection with
      | .fragment _ _ => .error "Fragment is not yet supported"
      | .field _ fieldName sub? => do
        let result ← F.validateFieldRequirement graph
          ⟨fieldName, sub?, req.paths⟩ excluded
        match result with
        | none => .ok (false, [])
        | some (paths, innerReqs) =>
          F.satisfyLoop graph excluded (rest ++ innerReqs)
            (acc ++ findBestPathsPerSubgraph paths)
  validateFieldRequirement := fun graph req excluded => do
    let direct ← req.paths.foldlM
      (fun acc p => do
        let d ← F.findDirectPaths graph p ⟨req.fieldName⟩ excluded
        .ok (acc ++ d))
      []
    let nextPaths ← req.paths.foldlM
      (fun acc p => do
        let ind ← F.findIndirectPaths graph p ⟨req.fieldName⟩ excluded
        .ok (acc ++ ind))
      direct
    if nextPaths.isEmpty then .ok none
    else
      match req.selectionSet with
      | none => .ok (some (nextPaths, []))
      | some ss =>
        if ss.isEmpty then .ok (some (nextPaths, []))
        else .ok (some (nextPaths, ss.map (fun sel => ⟨sel, nextPaths⟩)))

/-- The step-indexed walker: `walkFns fuel` provides every mutually
recursive walker.ts function with recursion depth at most `fuel`. -/
def walkFns : Nat → WalkFns
  | 0 => errFns
  | fuel + 1 => mkFns (walkFns fuel)

/-- Body of one iteration of the walkQuery top-level loop: expand every
current path by direct then indirect paths and concatenate the results. -/
def walkStep (fuel : Nat) (graph : Graph) (paths : List OperationPath)
    (step : Step) : Except String (List OperationPath) :=
  paths.foldlM
    (fun acc path => do
      let directPaths ← (walkFns fuel).findDirectPaths graph path step Excluded.empty
      let indirectPaths ← (walkFns fuel).findIndirectPaths graph path step Excluded.empty
      .ok (acc ++ directPaths ++ indirectPaths))
    []

/-- The walkQuery stack loop: after the last step return
`findBestPath(nextPaths)` (which throws on an empty list); if an earlier
step leaves no paths, the loop ends and `null` is returned. -/
def walkLoop (fuel : Nat) (graph : Graph) :
    Step → List Step → List OperationPath → Except String (Option OperationPath)
  | step, [], paths => do
    let nextPaths ← walkStep fuel graph paths step
    let best ← findBestPath nextPaths
    .ok (some best)
  | step, s2 :: rest2, paths => do
    let nextPaths ← walkStep fuel graph paths step
    if nextPaths.isEmpty then .ok none
    else walkLoop fuel graph s2 rest2 nextPaths

/-- OperationTypeNode of graphql-js, restricted to the three values the
walker reads. -/
inductive OperationType where
  | query
  | mutation
  | subscription
deriving DecidableEq, Repr

/-- operationTypeToTypeName from walker.ts. -/
def operationTypeToTypeName : OperationType → String
  | .query => "Query"
  | .mutation => "Mutation"
  | .subscription => "Subscription"

/-- walkQuery from walker.ts: seed one `OperationPath` per root node
(`nodesOf` throws when the root type has no node), then run the loop.  An
empty `steps` array makes the source dereference
`stepsCloned.shift()! === undefined` (`step.kind` on `undefined`), a
TypeError — an error, modelled as `Except.error`. -/
def walkQueryModel (fuel : Nat) (graph : Graph) (operationType : OperationType)
    (steps : List Step) : Except String (Option OperationPath) := do
  let nodes ← graph.nodesOfE (operationTypeToTypeName operationType)
  let initialPaths := nodes.map (fun n => OperationPath.mk n [] [] 0)
  match steps with
  | [] => .error "TypeError: Cannot read properties of undefined (reading kind)"
  | step :: rest => walkLoop fuel graph step rest initialPaths

/-- The survivors of the last step of a `walkQueryModel` run: the
`nextPaths` list that `findBestPath` receives.  Errors when the run would
return `null` before the last step (a case in which `walkQueryModel`
returns no path). -/
def walkSurvLoop (fuel : Nat) (graph : Graph) :
    Step → List Step → List OperationPath → Except String (List OperationPath)
  | step, [], paths => walkStep fuel graph paths step
  | step, s2 :: rest2, paths => do
    let nextPaths ← walkStep fuel graph paths step
    if nextPaths.isEmpty then .error "walker returned null before the last step"
    else walkSurvLoop fuel graph s2 rest2 nextPaths

/-- Entry point for `walkSurvLoop`, mirroring `walkQueryModel`. -/
def walkSurvivorsModel (fuel : Nat) (graph : Graph)
    (operationType : OperationType) (steps : List Step) :
    Except String (List OperationPath) := do
  let nodes ← graph.nodesOfE (operationTypeToTypeName operationType)
  let initialPaths := nodes.map (fun n => OperationPath.mk n [] [] 0)
  match steps with
  | [] => .error "TypeError: Cannot read properties of undefined (reading kind)"
  | step :: rest => walkSurvLoop fuel graph step rest initialPaths

/-! Concrete instances: the two-subgraph supergraph of plan.ts (scenario S1
of the specification) and a three-level variant used to examine the sets
the walker carries between steps. -/

/-- A `@join__field` record owned by one graph with all optional data
absent. -/
def plainJoin (graphId : String) : JoinField :=
  ⟨some graphId, none, none, none, false, none, false⟩

/-- Subgraph A of plan.ts: `User @key("id") { id name age }`; the root
`Query` type exists in every subgraph of the composed supergraph but owns
no field here. -/
def demoSubA : Subgraph :=
  { graphId := "A"
  , types :=
      [ ("Query", ⟨"Query", [], [⟨"A", none, false, true, false⟩]⟩)
      , ("User",
          ⟨"User",
            [ ⟨"id", "ID", false, plainJoin "A"⟩
            , ⟨"name", "String", false, plainJoin "A"⟩
            , ⟨"age", "Int", false, plainJoin "A"⟩ ],
            [⟨"A", some "id", false, true, false⟩]⟩) ]
  , entityTypes := ["User"] }

/-- Subgraph B of plan.ts: `User @key("id") { id name }` and
`Query { users: [User] }`. -/
def demoSubB : Subgraph :=
  { graphId := "B"
  , types :=
      [ ("Query",
          ⟨"Query", [⟨"users", "User", true, plainJoin "B"⟩],
            [⟨"B", none, false, true, false⟩]⟩)
      , ("User",
          ⟨"User",
            [ ⟨"id", "ID", false, plainJoin "B"⟩
            , ⟨"name", "String", false, plainJoin "B"⟩ ],
            [⟨"B", some "id", false, true, false⟩]⟩) ]
  , entityTypes := ["User"] }

/-- The plan.ts supergraph: subgraphs A and B. -/
def demoSupergraph1 : Supergraph := [("A", demoSubA), ("B", demoSubB)]

/-- The merged query graph of the plan.ts supergraph (the empty graph if
the pipeline failed; the theorems assert that it did not). -/
def demoGraph1 : Graph :=
  match parseSupergraphCore 20 demoSupergraph1 with
  | .ok g => g
  | .error _ => Graph.empty "unreachable"

/-- A symmetric two-subgraph supergraph where both subgraphs resolve
`Query.user`, `User @key("id") { id pet }` and `Pet { name }`. -/
def demoSubC (gid : String) : Subgraph :=
  { graphId := gid
  , types :=
      [ ("Query",
          ⟨"Query", [⟨"user", "User", false, plainJoin gid⟩],
            [⟨gid, none, false, true, false⟩]⟩)
      , ("User",
          ⟨"User",
            [ ⟨"id", "ID", false, plainJoin gid⟩
            , ⟨"pet", "Pet", false, plainJoin gid⟩ ],
            [⟨gid, some "id", false, true, false⟩]⟩)
      , ("Pet",
          ⟨"Pet", [⟨"name", "String", false, plainJoin gid⟩],
            [⟨gid, none, false, true, false⟩]⟩) ]
  , entityTypes := ["User"] }

/-- The symmetric supergraph with subgraphs A and B. -/
def demoSupergraph2 : Supergraph := [("A", demoSubC "A"), ("B", demoSubC "B")]

/-- The merged query graph of the symmetric supergraph. -/
def demoGraph2 : Graph :=
  match parseSupergraphCore 20 demoSupergraph2 with
  | .ok g => g
  | .error _ => Graph.empty "unreachable"

/-! The plan synthesizer (plan.ts).  The `variableUsages` field is always
`[]` and `operationKind` always `query` in the source's constructors; both
are omitted from the embedded plan nodes. -/

/-- QueryPlanNode from plan-nodes.ts:
`Fetch | Sequence | Parallel | Flatten`. -/
inductive QueryPlanNode where
  | fetch (serviceName : String) (requires : Option SelectionNode)
      (operation : String)
  | sequence (nodes : List QueryPlanNode)
  | parallel (nodes : List QueryPlanNode)
  | flatten (path : List String) (node : QueryPlanNode)

/-- QueryPlan from plan-nodes.ts. -/
structure QueryPlan where
  node : QueryPlanNode

/-- ServiceSegment from plan.ts. -/
structure ServiceSegment where
  graphId : String
  edges : List Edge
  startNode : Node
  endNode : Node

/-- groupPathByService from plan.ts: split the path's edges into maximal
runs with the same `head.subgraphId`. -/
def groupPathByService (path : OperationPath) : List ServiceSegment :=
  match path.edges with
  | [] => [⟨path.rootNode.subgraphId, [], path.rootNode, path.rootNode⟩]
  | e0 :: _ =>
    let final := path.edges.foldl
      (fun (st : List ServiceSegment × String × List Edge × Node) edge =>
        let (result, currentService, currentGroup, startNode) := st
        let edgeService := edge.head.subgraphId
        if currentService != edgeService && !currentGroup.isEmpty then
          let lastEdge := currentGroup.getLast? |>.getD edge
          (result ++ [⟨currentService, currentGroup, startNode, lastEdge.tail⟩],
           edgeService, [edge], edge.head)
        else
          (result, edgeService, currentGroup ++ [edge], startNode))
      ([], e0.head.subgraphId, [], path.rootNode)
    let (result, currentService, currentGroup, startNode) := final
    if !currentGroup.isEmpty then
      let lastEdge := currentGroup.getLast? |>.getD e0
      result ++ [⟨currentService, currentGroup, startNode, lastEdge.tail⟩]
    else result

/-- EntityRequirement from plan.ts. -/
structure EntityRequirement where
  graphId : String
  entityTypeName : String
  requiredFields : Selection
  targetGraphId : String
  targetField : String
  flattenPath : List String

/-- One iteration of the findEntityRequirements loop of plan.ts at edge
index `i`: an edge whose move is an `EntityMove` carrying a requirement
contributes one `EntityRequirement` whose `flattenPath` pushes the field
name of every `FieldMove` edge strictly before it, followed by `"@"` when
that field returns a list (the source additionally appends `"@"` when the
entity edge itself is a list-returning `FieldMove`, which can never hold
inside this branch); the target field is the next edge's `FieldMove`
name, and its absence throws "Oopsie poopsie". -/
def isListFieldMove : Move → Bool
  | .fieldMove _ _ _ isList => isList
  | _ => false

/-- The implementation of `entityReqStep`, continued: the target field of
the edge at index `i + 1`. -/
def targetFieldAt (path : OperationPath) (i : Nat) : Option String :=
  match path.edges.get? (i + 1) with
  | some next =>
    match next.move with
    | .fieldMove name _ _ _ => some name
    | _ => none
  | none => none

def entityReqStep (path : OperationPath) (acc : List EntityRequirement)
    (i : Nat) : Except String (List EntityRequirement) :=
  match path.edges.get? i with
  | none => .ok acc
  | some edge =>
    match edge.move with
    | .entityMove =>
      match edge.requirement with
      | some requirement =>
        let flattenPath := (path.edges.take i).foldl
          (fun fp pathEdge =>
            match pathEdge.move with
            | .fieldMove name _ _ isList =>
              fp ++ [name] ++ (if isList then ["@"] else [])
            | _ => fp)
          []
        let flattenPath :=
          if isListFieldMove edge.move then flattenPath ++ ["@"] else flattenPath
        match targetFieldAt path i with
        | none => .error "Oopsie poopsie"
        | some targetField =>
          .ok (acc ++ [⟨edge.head.subgraphId, edge.head.typeName, requirement,
            edge.tail.subgraphId, targetField, flattenPath⟩])
      | none => .ok acc
    | _ => .ok acc

/-- findEntityRequirements from plan.ts: fold `entityReqStep` over the
edge indices. -/
def findEntityRequirements (path : OperationPath) :
    Except String (List EntityRequirement) :=
  (List.range path.edges.length).foldlM (entityReqStep path) []

mutual

/-- Element part of addRequirementFields from plan.ts (the source wraps
each nested node back into a one-element `Selection` before recursing; the
recursion visits exactly the nested nodes). -/
def addRequirementFieldsNode (sel : SelectionNode) (indent : String) : String :=
  match sel with
  | .field _ fieldName selectionSet =>
    match selectionSet with
    | some (n :: ns) =>
      indent ++ fieldName ++ " \x7b\n"
        ++ addRequirementFieldsList (n :: ns) (indent ++ "  ")
        ++ indent ++ "\x7d\n"
    | _ => indent ++ fieldName ++ "\n"
  | .fragment typeName selectionSet =>
    indent ++ "... on " ++ typeName ++ " \x7b\n"
      ++ addRequirementFieldsList selectionSet (indent ++ "  ")
      ++ indent ++ "\x7d\n"

/-- List part of addRequirementFields from plan.ts. -/
def addRequirementFieldsList (sels : List SelectionNode) (indent : String) : String :=
  match sels with
  | [] => ""
  | s :: rest => addRequirementFieldsNode s indent ++ addRequirementFieldsList rest indent

end

/-- addRequirementFields from plan.ts applied to a `Selection`. -/
def addRequirementFields (requirement : Selection) (indent : String) : String :=
  addRequirementFieldsList requirement.selectionSet indent

/-- Composite type kinds that receive a `__typename` selection in
buildSelectionSetFromPath. -/
def isCompositeKind (k : TypeKind) : Bool :=
  k == TypeKind.objectType || k == TypeKind.interfaceType || k == TypeKind.unionType

/-- Loop of buildSelectionSetFromPath from plan.ts, processing the stack of
(edge, isLast) items front to back while tracking depth and the selection
string. -/
def buildSelectionLoop : List (Edge × Bool) → Nat → String → Except String (Nat × String)
  | [], depth, currentSelection => .ok (depth, currentSelection)
  | (edge, isLast) :: rest, depth, currentSelection =>
    match edge.move with
    | .fieldMove fieldName _ _ _ =>
      let indent := String.join (List.replicate depth "  ")
      let currentSelection :=
        if currentSelection == "" then "\x7b\n" else currentSelection
      let currentSelection := currentSelection ++ indent ++ fieldName
      let (currentSelection, depth) :=
        if isLast then
          if isCompositeKind edge.tail.typeKind then
            let s := currentSelection ++ " \x7b\n" ++ indent ++ "  __typename\n"
            let s :=
              match edge.requirement with
              | some req => s ++ addRequirementFields req (indent ++ "  ")
              | none => s
            (s ++ indent ++ "\x7d", depth)
          else (currentSelection, depth)
        else
          if isCompositeKind edge.tail.typeKind then
            (currentSelection ++ " \x7b\n" ++ indent ++ "  __typename\n", depth + 1)
          else (currentSelection, depth)
      buildSelectionLoop rest depth (currentSelection ++ "\n")
    | .entityMove =>
      let currentSelection :=
        match edge.requirement with
        | some req =>
          currentSelection
            ++ addRequirementFields req (String.join (List.replicate depth "  "))
        | none => currentSelection
      buildSelectionLoop rest depth currentSelection
    | _ => .error "Unsupported edge type"

/-- buildSelectionSetFromPath from plan.ts. -/
def buildSelectionSetFromPath (pathSegment : List Edge) : Except String String :=
  match pathSegment with
  | [] => .ok "\x7b\x7d"
  | _ => do
    let stack := (pathSegment.zip (List.range pathSegment.length)).map
      (fun (p : Edge × Nat) => (p.1, p.2 == pathSegment.length - 1))
    let (depth, currentSelection) ← buildSelectionLoop stack 0 ""
    let closed := (List.range (depth + 1)).foldl
      (fun s i =>
        s ++ String.join (List.replicate (depth - i) "  ") ++ "\x7d\n")
      currentSelection
    .ok closed

/-- buildOperationFromPathSegment from plan.ts. -/
def buildOperationFromPathSegment (edges : List Edge) : Except String String :=
  match edges with
  | [] => .ok "\x7b\x7d"
  | _ => buildSelectionSetFromPath edges

/-- buildEntityOperation from plan.ts.  The source round-trips the
constructed text through the external graphql-js `parse` and `print`
normalizer; the embedding keeps the constructed text. -/
def buildEntityOperation (typeName fieldName : String) : String :=
  "query($representations:[_Any!]!)\x7b_entities(representations:$representations)\x7b...on "
    ++ typeName ++ "\x7b" ++ fieldName ++ "\x7d\x7d\x7d"

/-- createFetchNode from plan.ts. -/
def createFetchNode (serviceName : String) (edges : List Edge) :
    Except String QueryPlanNode := do
  let operation ← buildOperationFromPathSegment edges
  .ok (QueryPlanNode.fetch serviceName none operation)

/-- createEntityFetchNode from plan.ts: a Flatten at the requirement's
path around a Fetch against the target subgraph whose `requires` is the
requirement selection re-labelled as a fragment. -/
def createEntityFetchNode (req : EntityRequirement) : QueryPlanNode :=
  QueryPlanNode.flatten req.flattenPath
    (QueryPlanNode.fetch req.targetGraphId
      (some (SelectionNode.fragment req.requiredFields.typeName
        req.requiredFields.selectionSet))
      (buildEntityOperation req.entityTypeName req.targetField))

/-- generateQueryPlan from plan.ts: the first service segment's Fetch
followed by one entity Fetch per requirement, wrapped in a Sequence when
there is more than one node. -/
def generateQueryPlan (mainPath : OperationPath) : Except String QueryPlan := do
  let mainSegments := groupPathByService mainPath
  let entityRequirements ← findEntityRequirements mainPath
  let planNodes ←
    match mainSegments with
    | [] => pure ([] : List QueryPlanNode)
    | firstSegment :: _ => do
      let f ← createFetchNode firstSegment.graphId firstSegment.edges
      pure [f]
  let planNodes := planNodes ++ entityRequirements.map createEntityFetchNode
  .ok ⟨match planNodes with
       | [node] => node
       | _ => QueryPlanNode.sequence planNodes⟩

/-- Top-level nodes of a generated plan (the plan root is either a single
node or one Sequence of nodes). -/
def topLevelNodes : QueryPlanNode → List QueryPlanNode
  | .sequence ns => ns
  | n => [n]

/-- The Flatten paths among a plan's top-level nodes. -/
def flattenPathsOf (plan : QueryPlan) : List (List String) :=
  (topLevelNodes plan.node).filterMap
    (fun n => match n with | .flatten path _ => some path | _ => none)

/-- The Flatten path the specification prescribes for an entity edge at
index `i` of a path: the field names of the `FieldMove` edges from the root
up to the edge's head, with `"@"` appended immediately after every field
whose `FieldMove` returns a list. -/
def flattenPathSpec (edges : List Edge) (i : Nat) : List String :=
  (edges.take i).foldl
    (fun fp e =>
      match e.move with
      | .fieldMove name _ _ isList => fp ++ [name] ++ (if isList then ["@"] else [])
      | _ => fp)
    []

/-! Checkers and relations used to state the claims. -/

/-- Whether an `Except` carries a value. -/
def exceptIsOk {α : Type} : Except String α → Bool
  | .ok _ => true
  | .error _ => false

/-- Sum of per-edge base costs of a list of edges. -/
def sumBaseCosts (edges : List Edge) : Nat :=
  (edges.map calculateCost).sum

/-- Sum of the stored costs of all requirement sub-paths in all buckets. -/
def sumBuckets (buckets : List (List OperationPath)) : Nat :=
  (buckets.map sumCosts).sum

/-- The cost equation the specification claims of every path: the stored
cost is the sum of per-edge base costs plus the stored costs of the
attached requirement sub-paths. -/
def costEquation (p : OperationPath) : Prop :=
  p.cost = sumBaseCosts p.edges + sumBuckets p.requiredPathsForEdges

/-- Deep boolean check of `costEquation`, step-indexed by a depth fuel:
the equation holds for the path and recursively for every requirement
sub-path attached, down to the given depth (deeper levels pass
vacuously, so a `false` result always exhibits a genuine violation). -/
def costClaimOK : Nat → OperationPath → Bool
  | 0, _ => true
  | depth + 1, .mk _ edges buckets cost =>
    (cost == sumBaseCosts edges + sumBuckets buckets)
      && buckets.all (fun b => b.all (fun q => costClaimOK depth q))

/-- Paths the walker builds from a fresh root by `advance` and
`addRequiredPaths` (the `addRequiredPaths` call sites of walker.ts always
run immediately after `advance`, so the path has at least one edge). -/
inductive BuiltFresh : OperationPath → Prop
  | root (n : Node) : BuiltFresh (OperationPath.mk n [] [] 0)
  | advance {p : OperationPath} (e : Edge) :
      BuiltFresh p → BuiltFresh (p.advance e)
  | addRequired {p : OperationPath} (qs : List OperationPath) :
      BuiltFresh p → p.requiredPathsForEdges ≠ [] →
      BuiltFresh (p.addRequiredPaths qs)

/-- Pairwise distinctness of the tail subgraphs of a list of paths. -/
def distinctTailSubgraphs : List OperationPath → Bool
  | [] => true
  | p :: ps =>
    ps.all (fun q => q.tail.subgraphId != p.tail.subgraphId)
      && distinctTailSubgraphs ps

/-- Walks the steps like `walkQueryModel` and checks, for every set of
paths carried from one step to the next (pushed back on the walker's
stack), that its tail nodes lie in pairwise different subgraphs.  Runs the
claim holds on vacuously when the walker errors or stops early. -/
def carriedLoop (fuel : Nat) (graph : Graph) :
    Step → List Step → List OperationPath → Bool
  | step, rest, paths =>
    match walkStep fuel graph paths step with
    | .error _ => true
    | .ok nextPaths =>
      match rest with
      | [] => true
      | s2 :: rest2 =>
        if nextPaths.isEmpty then true
        else distinctTailSubgraphs nextPaths && carriedLoop fuel graph s2 rest2 nextPaths

/-- Claim C3 as a boolean property of one walker run: every set of
surviving paths carried to the next step has pairwise different tail
subgraphs. -/
def carriedSetsDistinct (fuel : Nat) (graph : Graph)
    (operationType : OperationType) (steps : List Step) : Bool :=
  match graph.nodesOfE (operationTypeToTypeName operationType) with
  | .error _ => true
  | .ok nodes =>
    match steps with
    | [] => true
    | step :: rest =>
      carriedLoop fuel graph step rest (nodes.map (fun n => OperationPath.mk n [] [] 0))

mutual

/-- Whether an AST selection contains an inline fragment or fragment
spread anywhere (also inside the selection set of a `__typename` field). -/
def astContainsFragment : ASTSelection → Bool
  | .field _ (some ss) => astListContainsFragment ss
  | .field _ none => false
  | .inlineFragment _ _ => true
  | .fragmentSpread _ => true

/-- List version of `astContainsFragment`. -/
def astListContainsFragment : List ASTSelection → Bool
  | [] => false
  | s :: rest => astContainsFragment s || astListContainsFragment rest

end

mutual

/-- Whether an AST selection contains a fragment outside the selection set
of a field named `__typename` (such selection sets are dropped wholesale by
`resolveFieldNode` without being visited). -/
def astContainsFragmentLive : ASTSelection → Bool
  | .field n (some ss) => if n == "__typename" then false else astListContainsFragmentLive ss
  | .field _ none => false
  | .inlineFragment _ _ => true
  | .fragmentSpread _ => true

/-- List version of `astContainsFragmentLive`. -/
def astListContainsFragmentLive : List ASTSelection → Bool
  | [] => false
  | s :: rest => astContainsFragmentLive s || astListContainsFragmentLive rest

end

mutual

/-- No field named `__typename` occurs in the node at any depth. -/
def noTypenameNode : SelectionNode → Bool
  | .field _ fn (some ss) => fn != "__typename" && noTypenameList ss
  | .field _ fn none => fn != "__typename"
  | .fragment _ ss => noTypenameList ss

/-- List version of `noTypenameNode`. -/
def noTypenameList : List SelectionNode → Bool
  | [] => true
  | s :: rest => noTypenameNode s && noTypenameList rest

end

/-- Permutation of the order of fields at any nesting level of an AST
selection set: the relation is generated by the `List.Perm`-style
constructors on each level together with congruence into the nested
selection sets. -/
inductive SetPerm : List ASTSelection → List ASTSelection → Prop
  | nil : SetPerm [] []
  | consFieldNone (n : String) {l l' : List ASTSelection} :
      SetPerm l l' →
      SetPerm (ASTSelection.field n none :: l) (ASTSelection.field n none :: l')
  | consFieldSome (n : String) {s s' l l' : List ASTSelection} :
      SetPerm s s' → SetPerm l l' →
      SetPerm (ASTSelection.field n (some s) :: l)
        (ASTSelection.field n (some s') :: l')
  | consInline (t : String) {s s' l l' : List ASTSelection} :
      SetPerm s s' → SetPerm l l' →
      SetPerm (ASTSelection.inlineFragment t s :: l)
        (ASTSelection.inlineFragment t s' :: l')
  | consSpread (n : String) {l l' : List ASTSelection} :
      SetPerm l l' →
      SetPerm (ASTSelection.fragmentSpread n :: l)
        (ASTSelection.fragmentSpread n :: l')
  | swap (a b : ASTSelection) (l : List ASTSelection) :
      SetPerm (a :: b :: l) (b :: a :: l)
  | trans {l1 l2 l3 : List ASTSelection} :
      SetPerm l1 l2 → SetPerm l2 l3 → SetPerm l1 l3

/-- Boolean nodup check on a list of strings. -/
def listNodupB : List String → Bool
  | [] => true
  | x :: xs => !xs.contains x && listNodupB xs

/-- Contribution of one AST selection to the top-level field-name list:
`__typename` and fragments contribute nothing, any other field its name. -/
def topName1 : ASTSelection → List String
  | .field n _ => if n == "__typename" then [] else [n]
  | _ => []

/-- Top-level field names of an AST selection set, `__typename` omitted
(those fields are dropped by the resolver). -/
def topFieldNames : List ASTSelection → List String
  | [] => []
  | s :: rest => topName1 s ++ topFieldNames rest

/-- The name carried by a resolved selection node: the field name of a
field node, the type name of a fragment node. -/
def selNodeName : SelectionNode → String
  | .field _ n _ => n
  | .fragment t _ => t

mutual

/-- Element part of `nodupDeepList`. -/
def nodupDeepNode : ASTSelection → Bool
  | .field _ (some ss) => nodupDeepList ss
  | .field _ none => true
  | .inlineFragment _ ss => nodupDeepList ss
  | .fragmentSpread _ => true

/-- The non-`__typename` field names are pairwise distinct at this level
and recursively at every nested level. -/
def nodupDeepList (sels : List ASTSelection) : Bool :=
  listNodupB (topFieldNames sels) && nodupDeepAux sels

/-- Element-wise recursion of `nodupDeepList`. -/
def nodupDeepAux : List ASTSelection → Bool
  | [] => true
  | s :: rest => nodupDeepNode s && nodupDeepAux rest

end

/-! Further concrete values used by specific claims. -/

/-- A single two-type subgraph used by the selection-resolver claims:
type T with field `a : U`, and type U with fields `x : String` and
`y : String`. -/
def demoSubT : Subgraph :=
  { graphId := "T1"
  , types :=
      [ ("T", ⟨"T", [⟨"a", "U", false, plainJoin "T1"⟩], []⟩)
      , ("U", ⟨"U", [⟨"x", "String", false, plainJoin "T1"⟩,
                     ⟨"y", "String", false, plainJoin "T1"⟩], []⟩) ]
  , entityTypes := [] }

/-- An AST selection set containing an inline fragment, hidden inside the
selection set of a `__typename` field. -/
def demoFragAst : List ASTSelection :=
  [ASTSelection.field "__typename"
    (some [ASTSelection.inlineFragment "U" [ASTSelection.field "x" none]])]

/-- The root `Query` node of subgraph B inside the merged plan.ts graph. -/
def nodeQueryB : Node := ⟨5, "B", "Query", TypeKind.objectType⟩

/-- The `User` node of subgraph B inside the merged plan.ts graph. -/
def nodeUserB : Node := ⟨6, "B", "User", TypeKind.objectType⟩

/-- The `Query.users` edge of subgraph B inside the merged plan.ts
graph. -/
def edgeUsersB : Edge :=
  ⟨3, nodeQueryB, nodeUserB, Move.fieldMove "users" "Query" TypeKind.objectType true, none⟩

/-- The path the walker returns on the plan.ts graph for the single step
`users`. -/
def pathUsersW : OperationPath := OperationPath.mk nodeQueryB [edgeUsersB] [[]] 1

/-- The result of resolving `"x __typename"` against type `U` of
`demoSubT`. -/
def demoTypenameSel : Selection :=
  ⟨"U", "x __typename", [SelectionNode.field "U" "x" none]⟩

/-- The root `Query` node of subgraph A in the merged symmetric graph. -/
def nodeQueryA2 : Node := ⟨0, "A", "Query", TypeKind.objectType⟩

/-- The empty path rooted at `Query/A` of the symmetric graph. -/
def pathQueryA2 : OperationPath := OperationPath.mk nodeQueryA2 [] [] 0

/-- An artificial second path whose tail lies in subgraph B (like
`pathUsersW`) but with a higher stored cost. -/
def pathExpensive : OperationPath := OperationPath.mk nodeQueryB [] [] 5

/-- An entity edge whose requirement selection set starts with a fragment
node, used to witness the `canSatisfyEdge` fragment error. -/
def edgeFragReq : Edge :=
  ⟨9, nodeUserB, nodeUserB, Move.entityMove,
   some ⟨"User", "fragfirst", [SelectionNode.fragment "User" []]⟩⟩

/-! Theorems.  General-purpose lemmas come first, then one theorem per
claim (with witnesses and counterexamples where required). -/

theorem eBind_ok {α β : Type} (a : α) (f : α → Except String β) :
    (Except.ok a >>= f) = f a := rfl

theorem eBind_err {α β : Type} (e : String) (f : α → Except String β) :
    ((Except.error e : Except String α) >>= f) = Except.error e := rfl

theorem cost_mk (r : Node) (e : List Edge) (b : List (List OperationPath))
    (c : Nat) : (OperationPath.mk r e b c).cost = c := rfl

theorem edges_mk (r : Node) (e : List Edge) (b : List (List OperationPath))
    (c : Nat) : (OperationPath.mk r e b c).edges = e := rfl

theorem buckets_mk (r : Node) (e : List Edge) (b : List (List OperationPath))
    (c : Nat) : (OperationPath.mk r e b c).requiredPathsForEdges = b := rfl

/-- Claim C1 (code bug): the spec says a walk that exhausts all direct and
indirect expansions returns `null` without throwing, but when the paths run
out at the LAST step, `walkQuery` hands the empty survivor list to
`findBestPath`, whose `invariant(bestPath, "No best path found")` throws.
Concretely: on the plan.ts supergraph, one step `nope` (a field no subgraph
offers) makes `walkQuery` throw instead of returning `null`. -/
theorem claim1_no_path_throws :
    walkQueryModel 20 demoGraph1 OperationType.query [⟨"nope"⟩]
      = Except.error "Invariant failed: No best path found" := by rfl

/-- Claim C3 (counterexample): in the walker's top-level loop the union of
direct and indirect expansions is NOT deduplicated by tail subgraph.  On
the symmetric two-subgraph graph (both subgraphs offer `Query.user`,
`User.pet`, `User @key(id)`), after the steps `user` and `pet` the carried
set contains two paths ending in `Pet/A` (and two ending in `Pet/B`), so
the claimed per-step dedup property is false. -/
theorem claim3_counterexample :
    exceptIsOk (parseSupergraphCore 20 demoSupergraph2) = true
  ∧ carriedSetsDistinct 20 demoGraph2 OperationType.query
      [⟨"user"⟩, ⟨"pet"⟩, ⟨"name"⟩] = false := ⟨rfl, rfl⟩

/-- Claim C4 (counterexample): the path returned by the walker on the
plan.ts supergraph for `users age` carries a requirement sub-path whose
stored cost (1) differs from the claimed sum of its per-edge base costs
plus attached requirement costs (its edge list, inherited from
`clone()`, sums to 2): the deep cost equation is false of
walker-produced paths. -/
theorem claim4_counterexample :
    (match walkQueryModel 20 demoGraph1 OperationType.query
        [⟨"users"⟩, ⟨"age"⟩] with
     | .ok (some p) => costClaimOK 5 p
     | _ => true) = false := by rfl

/-- Claim C6: for the two-subgraph plan.ts supergraph (both subgraphs
define entity `User` with resolvable key `id`), the merged graph built by
the parseSupergraph pipeline contains exactly two `User` nodes (one per
subgraph) and exactly two entity-move edges between them, and the
requirement of the edge into subgraph G is G's resolver applied to
`("User", "id")`. -/
theorem claim6_graph_construction :
    exceptIsOk (parseSupergraphCore 20 demoSupergraph1) = true
  ∧ (match demoGraph1.nodesOfE "User" with
     | .ok ns => ns.map (fun n => (n.typeName, n.subgraphId))
     | .error _ => []) = [("User", "A"), ("User", "B")]
  ∧ demoGraph1.edgesByHeadTypeIndex.flatten.filterMap (fun e =>
      match e.move with
      | .entityMove => some ((e.head.typeName, e.head.subgraphId),
          (e.tail.typeName, e.tail.subgraphId), e.requirement)
      | _ => none)
    = [ (("User", "A"), ("User", "B"),
         (SelectionResolver.resolve 20 demoSubB "User" "id").toOption),
        (("User", "B"), ("User", "A"),
         (SelectionResolver.resolve 20 demoSubA "User" "id").toOption) ]
  := ⟨rfl, rfl, rfl⟩

/-- Claim C8 (counterexample): a key/requires selection set that contains
an inline fragment does NOT always fail: when the fragment sits inside the
selection set of a field named `__typename`, `resolveFieldNode` drops the
whole field before looking at it and resolution succeeds. -/
theorem claim8_counterexample :
    astListContainsFragment demoFragAst = true
  ∧ resolveSelectionSetNode 5 demoSubT "T" demoFragAst [] = Except.ok []
  := ⟨rfl, rfl⟩

/-- Claim C9: `walkQuery` with an empty step list always fails with an
error (never `null`, never a path): the first step is unconditionally
dereferenced (`stepsCloned.shift()!`), which on an empty array yields
`undefined` and a TypeError; and when the root type is missing from the
graph, `nodesOf` throws first. -/
theorem claim9_empty_steps (fuel : Nat) (g : Graph) (ot : OperationType) :
    exceptIsOk (walkQueryModel fuel g ot []) = false := by
  unfold walkQueryModel
  cases h : g.nodesOfE (operationTypeToTypeName ot) with
  | error e => simp [h, eBind_err, exceptIsOk]
  | ok ns => simp [h, eBind_ok, exceptIsOk]

theorem sumCosts_cons (q : OperationPath) (qs : List OperationPath) :
    sumCosts (q :: qs) = q.cost + sumCosts qs := by
  have aux : ∀ (l : List OperationPath) (n : Nat),
      l.foldl (fun c r => c + r.cost) n = n + l.foldl (fun c r => c + r.cost) 0 := by
    intro l
    induction l with
    | nil => intro n; simp
    | cons x xs ih =>
      intro n
      simp only [List.foldl_cons]
      rw [ih (n + x.cost), ih (0 + x.cost)]
      omega
  simp only [sumCosts, List.foldl_cons]
  rw [aux qs (0 + q.cost)]
  omega

theorem sumBaseCosts_append (es : List Edge) (e : Edge) :
    sumBaseCosts (es ++ [e]) = sumBaseCosts es + calculateCost e := by
  simp [sumBaseCosts]

theorem sumBuckets_append_nil (l : List (List OperationPath)) :
    sumBuckets (l ++ [[]]) = sumBuckets l := by
  simp [sumBuckets, sumCosts]

theorem sumCosts_append (b qs : List OperationPath) :
    sumCosts (b ++ qs) = sumCosts b + sumCosts qs := by
  induction b with
  | nil => simp [sumCosts]
  | cons x xs ihb => simp only [List.cons_append, sumCosts_cons, ihb]; omega

theorem sumBuckets_appendToLastBucket (l : List (List OperationPath))
    (qs : List OperationPath) (h : l ≠ []) :
    sumBuckets (appendToLastBucket l qs) = sumBuckets l + sumCosts qs := by
  induction l with
  | nil => exact absurd rfl h
  | cons b bs ih =>
    cases bs with
    | nil =>
      simp [appendToLastBucket, sumBuckets, sumCosts_append]
    | cons b2 bs2 =>
      have ih2 := ih (by simp)
      simp only [appendToLastBucket, sumBuckets, List.map_cons, List.sum_cons] at *
      omega

/-- Claim C4 (amended): the cost equation `cost = sum of per-edge base
costs + sum of attached requirement sub-path costs` holds of every path
the walker builds from a fresh root node by `advance` and
`addRequiredPaths`; requirement sub-paths, however, are seeded from
`clone()`, which keeps the prefix edges while passing no cost (so the
constructor default 0 applies), and therefore count only the edges
appended after the clone — as `claim4_counterexample` exhibits on a
walker-produced path. -/
theorem claim4_amended (p q : OperationPath) (h : BuiltFresh p) :
    costEquation p ∧ (OperationPath.clone q).cost = 0 := by
  constructor
  · induction h with
    | root n => simp [costEquation, sumBaseCosts, sumBuckets, cost_mk, edges_mk, buckets_mk]
    | advance e hb ih =>
      rename_i p'
      cases p' with
      | mk r es bs c =>
        simp only [costEquation, OperationPath.advance, cost_mk, edges_mk,
          buckets_mk, sumBaseCosts_append, sumBuckets_append_nil] at *
        omega
    | addRequired qs hb hne ih =>
      rename_i p'
      cases p' with
      | mk r es bs c =>
        simp only [costEquation, OperationPath.addRequiredPaths, cost_mk,
          edges_mk, buckets_mk] at *
        rw [sumBuckets_appendToLastBucket bs qs hne]
        omega
  · cases q; rfl

/-- Witness for `claim4_amended` at a concrete one-edge path and a
concrete clone argument. -/
theorem claim4_amended_witness :
    costEquation ((OperationPath.mk nodeQueryB [] [] 0).advance edgeUsersB)
  ∧ (OperationPath.clone pathUsersW).cost = 0 :=
  claim4_amended _ pathUsersW
    (BuiltFresh.advance edgeUsersB (BuiltFresh.root nodeQueryB))

theorem bpsUpsert_fst (p : OperationPath) (q : String × OperationPath) :
    (if q.1 == p.tail.subgraphId && p.cost < q.2.cost
      then (q.1, p) else q).1 = q.1 := by
  by_cases hc : (q.1 == p.tail.subgraphId && p.cost < q.2.cost) = true
  · simp [hc]
  · simp [hc]

theorem bpsUpsert_inv {seen : List OperationPath}
    {m : List (String × OperationPath)} (p : OperationPath)
    (h : BPSInv seen m) : BPSInv (seen ++ [p]) (bestPerSubgraphUpsert m p) := by
  obtain ⟨h1, h2, h3, h4⟩ := h
  unfold bestPerSubgraphUpsert
  by_cases hany : m.any (fun q => q.1 == p.tail.subgraphId) = true
  · simp only [hany, if_true]
    refine ⟨?_, ?_, ?_, ?_⟩
    · intro kp hkp
      obtain ⟨q, hq, hrepl⟩ := List.mem_map.mp hkp
      by_cases hc : (q.1 == p.tail.subgraphId && p.cost < q.2.cost) = true
      · rw [if_pos hc] at hrepl
        have hk : q.1 = p.tail.subgraphId := by
          have := (Bool.and_eq_true _ _).mp hc |>.1
          exact eq_of_beq this
        subst hrepl
        exact hk.symm
      · rw [if_neg hc] at hrepl
        subst hrepl
        exact h1 q hq
    · apply List.pairwise_map.mpr
      apply h2.imp_of_mem
      intro a b _ _ hne
      rw [bpsUpsert_fst p a, bpsUpsert_fst p b]
      exact hne
    · intro kp hkp
      obtain ⟨q, hq, hrepl⟩ := List.mem_map.mp hkp
      by_cases hc : (q.1 == p.tail.subgraphId && p.cost < q.2.cost) = true
      · rw [if_pos hc] at hrepl
        have hk : q.1 = p.tail.subgraphId := eq_of_beq ((Bool.and_eq_true _ _).mp hc).1
        have hlt : p.cost < q.2.cost := by
          have := ((Bool.and_eq_true _ _).mp hc).2
          exact of_decide_eq_true this
        subst hrepl
        constructor
        · exact List.mem_append_right _ (List.mem_singleton.mpr rfl)
        · intro r hr hsub
          rcases List.mem_append.mp hr with hr | hr
          · exact le_of_lt (lt_of_lt_of_le hlt ((h3 q hq).2 r hr hsub))
          · rw [List.mem_singleton.mp hr]
      · rw [if_neg hc] at hrepl
        subst hrepl
        constructor
        · exact List.mem_append_left _ (h3 q hq).1
        · intro r hr hsub
          rcases List.mem_append.mp hr with hr | hr
          · exact (h3 q hq).2 r hr hsub
          · rw [List.mem_singleton.mp hr] at hsub ⊢
            have hk : q.1 = p.tail.subgraphId := hsub.symm
            have : ¬ p.cost < q.2.cost := by
              intro hlt
              apply hc
              refine (Bool.and_eq_true _ _).mpr ⟨?_, ?_⟩
              · exact beq_iff_eq.mpr hk
              · exact decide_eq_true hlt
            omega
    · intro r hr
      rcases List.mem_append.mp hr with hr | hr
      · obtain ⟨kp, hkp, hk⟩ := h4 r hr
        refine ⟨(if kp.1 == p.tail.subgraphId && p.cost < kp.2.cost
          then (kp.1, p) else kp), List.mem_map.mpr ⟨kp, hkp, rfl⟩, ?_⟩
        rw [bpsUpsert_fst p kp]
        exact hk
      · rw [List.mem_singleton.mp hr]
        obtain ⟨q, hq, hqk⟩ := List.any_eq_true.mp hany
        refine ⟨(if q.1 == p.tail.subgraphId && p.cost < q.2.cost
          then (q.1, p) else q), List.mem_map.mpr ⟨q, hq, rfl⟩, ?_⟩
        rw [bpsUpsert_fst p q]
        exact eq_of_beq hqk
  · rw [if_neg hany]
    have hnone : ∀ q ∈ m, q.1 ≠ p.tail.subgraphId := by
      intro q hq heq
      exact hany (List.any_eq_true.mpr ⟨q, hq, beq_iff_eq.mpr heq⟩)
    refine ⟨?_, ?_, ?_, ?_⟩
    · intro kp hkp
      rcases List.mem_append.mp hkp with hkp | hkp
      · exact h1 kp hkp
      · rw [List.mem_singleton.mp hkp]
    · rw [List.pairwise_append]
      refine ⟨h2, List.pairwise_singleton _ _, ?_⟩
      intro a ha b hb
      rw [List.mem_singleton.mp hb]
      exact hnone a ha
    · intro kp hkp
      rcases List.mem_append.mp hkp with hkp | hkp
      · constructor
        · exact List.mem_append_left _ (h3 kp hkp).1
        · intro r hr hsub
          rcases List.mem_append.mp hr with hr | hr
          · exact (h3 kp hkp).2 r hr hsub
          · rw [List.mem_singleton.mp hr] at hsub
            exact absurd hsub.symm (hnone kp hkp)
      · rw [List.mem_singleton.mp hkp]
        constructor
        · exact List.mem_append_right _ (List.mem_singleton.mpr rfl)
        · intro r hr hsub
          rcases List.mem_append.mp hr with hr | hr
          · obtain ⟨kp', hkp', hk'⟩ := h4 r hr
            exact absurd (hk'.trans hsub) (hnone kp' hkp')
          · rw [List.mem_singleton.mp hr]
    · intro r hr
      rcases List.mem_append.mp hr with hr | hr
      · obtain ⟨kp, hkp, hk⟩ := h4 r hr
        exact ⟨kp, List.mem_append_left _ hkp, hk⟩
      · rw [List.mem_singleton.mp hr]
        exact ⟨(p.tail.subgraphId, p),
          List.mem_append_right _ (List.mem_singleton.mpr rfl), rfl⟩

theorem bpsFold_inv : ∀ (l seen : List OperationPath)
    (m : List (String × OperationPath)), BPSInv seen m →
    BPSInv (seen ++ l) (l.foldl bestPerSubgraphUpsert m)
  | [], seen, m, h => by simpa using h
  | p :: rest, seen, m, h => by
    have step := bpsUpsert_inv p h
    have ih := bpsFold_inv rest (seen ++ [p]) (bestPerSubgraphUpsert m p) step
    simpa [List.append_assoc] using ih

theorem findBestPathsPerSubgraph_spec (l : List OperationPath) :
    List.Pairwise (fun a b => a.tail.subgraphId ≠ b.tail.subgraphId)
      (findBestPathsPerSubgraph l)
  ∧ ∀ p ∈ findBestPathsPerSubgraph l, p ∈ l
      ∧ ∀ q ∈ l, q.tail.subgraphId = p.tail.subgraphId → p.cost ≤ q.cost := by
  have hbase : BPSInv [] [] := by
    refine ⟨?_, ?_, ?_, ?_⟩ <;> simp [BPSInv]
  have hinv := bpsFold_inv l [] [] hbase
  rw [List.nil_append] at hinv
  obtain ⟨h1, h2, h3, _⟩ := hinv
  constructor
  · unfold findBestPathsPerSubgraph
    apply List.pairwise_map.mpr
    apply h2.imp_of_mem
    intro a b ha hb hne
    rw [h1 a ha, h1 b hb]
    exact hne
  · intro p hp
    obtain ⟨kp, hkp, hsnd⟩ := List.mem_map.mp hp
    subst hsnd
    refine ⟨(h3 kp hkp).1, ?_⟩
    intro q hq hsub
    exact (h3 kp hkp).2 q hq (by rw [hsub, h1 kp hkp])

/-- Claim C3 (amended): the walker dedupes by tail subgraph (keeping the
first strictly cheapest path per subgraph) only for the indirect-path
results — `findIndirectPaths` returns `findBestPathsPerSubgraph` of its
hits, whose elements end in pairwise different subgraphs and are cheapest
among same-subgraph hits — while the top-level loop carries the
un-deduplicated union of direct and indirect expansions
(`claim3_counterexample`). -/
theorem claim3_amended (F : WalkFns) (g : Graph) (path : OperationPath)
    (step : Step) (excl : Excluded) (l found : List OperationPath)
    (h : F.indirectLoop g path.tail.subgraphId step
        [(excl.graphIds, excl.requirements, path)] [] = .ok found) :
    (mkFns F).findIndirectPaths g path step excl
      = .ok (findBestPathsPerSubgraph found)
  ∧ List.Pairwise (fun a b => a.tail.subgraphId ≠ b.tail.subgraphId)
      (findBestPathsPerSubgraph l)
  ∧ (∀ p ∈ findBestPathsPerSubgraph l, p ∈ l
      ∧ ∀ q ∈ l, q.tail.subgraphId = p.tail.subgraphId → p.cost ≤ q.cost) := by
  refine ⟨?_, (findBestPathsPerSubgraph_spec l).1, (findBestPathsPerSubgraph_spec l).2⟩
  show (do
    let found ← F.indirectLoop g path.tail.subgraphId step
      [(excl.graphIds, excl.requirements, path)] []
    Except.ok (findBestPathsPerSubgraph found)) = _
  rw [h, eBind_ok]

/-- Witness for `claim3_amended`: the indirect expansion of the empty path
at `Query/A` of the symmetric graph for step `user` (no entity edge leaves
`Query/A`, so the loop returns the empty list), and the dedup facts at a
two-element list whose paths share the tail subgraph B. -/
theorem claim3_amended_witness :
    (mkFns (walkFns 5)).findIndirectPaths demoGraph2 pathQueryA2 ⟨"user"⟩
      Excluded.empty = .ok (findBestPathsPerSubgraph [])
  ∧ List.Pairwise (fun a b => a.tail.subgraphId ≠ b.tail.subgraphId)
      (findBestPathsPerSubgraph [pathUsersW, pathExpensive])
  ∧ (∀ p ∈ findBestPathsPerSubgraph [pathUsersW, pathExpensive],
      p ∈ [pathUsersW, pathExpensive]
      ∧ ∀ q ∈ [pathUsersW, pathExpensive],
          q.tail.subgraphId = p.tail.subgraphId → p.cost ≤ q.cost) :=
  claim3_amended (walkFns 5) demoGraph2 pathQueryA2 ⟨"user"⟩ Excluded.empty
    [pathUsersW, pathExpensive] [] (by rfl)

theorem bestAux_spec : ∀ (l : List OperationPath) (b r : OperationPath),
    l.foldl (fun (best : Option OperationPath) p =>
      match best with
      | none => some p
      | some bb => if p.cost < bb.cost then some p else some bb) (some b) = some r →
    ((r.cost ≤ b.cost ∧ ∀ q ∈ l, r.cost ≤ q.cost)
      ∧ (r = b ∨ ∃ pre post, l = pre ++ r :: post ∧ r.cost < b.cost
          ∧ ∀ q ∈ pre, r.cost < q.cost))
  | [], b, r, h => by
    simp only [List.foldl_nil, Option.some.injEq] at h
    subst h
    exact ⟨⟨le_refl _, by simp⟩, Or.inl rfl⟩
  | p :: rest, b, r, h => by
    simp only [List.foldl_cons] at h
    by_cases hc : p.cost < b.cost
    · rw [if_pos hc] at h
      obtain ⟨⟨hb, hrest⟩, hpos⟩ := bestAux_spec rest p r h
      refine ⟨⟨le_trans hb (le_of_lt hc), ?_⟩, ?_⟩
      · intro q hq
        rcases List.mem_cons.mp hq with hq | hq
        · rw [hq]; exact hb
        · exact hrest q hq
      · rcases hpos with hre | ⟨pre, post, hdec, hlt, hpre⟩
        · subst hre
          exact Or.inr ⟨[], rest, rfl, hc, by simp⟩
        · refine Or.inr ⟨p :: pre, post, by rw [hdec]; rfl,
            lt_trans hlt hc, ?_⟩
          intro q hq
          rcases List.mem_cons.mp hq with hq | hq
          · rw [hq]; exact hlt
          · exact hpre q hq
    · rw [if_neg hc] at h
      obtain ⟨⟨hb, hrest⟩, hpos⟩ := bestAux_spec rest b r h
      have hble : b.cost ≤ p.cost := Nat.le_of_not_lt hc
      refine ⟨⟨hb, ?_⟩, ?_⟩
      · intro q hq
        rcases List.mem_cons.mp hq with hq | hq
        · rw [hq]; exact le_trans hb hble
        · exact hrest q hq
      · rcases hpos with hre | ⟨pre, post, hdec, hlt, hpre⟩
        · exact Or.inl hre
        · refine Or.inr ⟨p :: pre, post, by rw [hdec]; rfl, hlt, ?_⟩
          intro q hq
          rcases List.mem_cons.mp hq with hq | hq
          · rw [hq]; exact lt_of_lt_of_le hlt hble
          · exact hpre q hq

theorem findBestPath_spec (l : List OperationPath) (p : OperationPath)
    (h : findBestPath l = .ok p) :
    (∀ q ∈ l, p.cost ≤ q.cost)
    ∧ ∃ pre post, l = pre ++ p :: post ∧ ∀ q ∈ pre, p.cost < q.cost := by
  cases l with
  | nil => exact absurd h (by simp [findBestPath])
  | cons x rest =>
    have hfold : rest.foldl (fun (best : Option OperationPath) p =>
        match best with
        | none => some p
        | some bb => if p.cost < bb.cost then some p else some bb)
        (some x) = some p := by
      unfold findBestPath at h
      simp only [List.foldl_cons] at h
      cases hf : rest.foldl (fun (best : Option OperationPath) p =>
          match best with
          | none => some p
          | some bb => if p.cost < bb.cost then some p else some bb)
          (some x) with
      | none => rw [hf] at h; exact absurd h (by simp)
      | some b => rw [hf] at h; simp only [Except.ok.injEq] at h; rw [h]
    obtain ⟨⟨hb, hrest⟩, hpos⟩ := bestAux_spec rest x p hfold
    constructor
    · intro q hq
      rcases List.mem_cons.mp hq with hq | hq
      · rw [hq]; exact hb
      · exact hrest q hq
    · rcases hpos with hre | ⟨pre, post, hdec, hlt, hpre⟩
      · subst hre
        exact ⟨[], rest, rfl, by simp⟩
      · refine ⟨x :: pre, post, by rw [hdec]; rfl, ?_⟩
        intro q hq
        rcases List.mem_cons.mp hq with hq | hq
        · rw [hq]; exact hlt
        · exact hpre q hq

theorem walkLoop_survivors (fuel : Nat) (g : Graph) :
    ∀ (rest : List Step) (step : Step) (paths : List OperationPath)
      (p : OperationPath),
    walkLoop fuel g step rest paths = .ok (some p) →
    ∃ l, walkSurvLoop fuel g step rest paths = .ok l ∧ findBestPath l = .ok p
  | [], step, paths, p, h => by
    unfold walkLoop at h
    cases hs : walkStep fuel g paths step with
    | error e => rw [hs, eBind_err] at h; exact absurd h (by simp)
    | ok np =>
      rw [hs, eBind_ok] at h
      cases hb : findBestPath np with
      | error e => rw [hb, eBind_err] at h; exact absurd h (by simp)
      | ok b =>
        rw [hb, eBind_ok] at h
        simp only [Except.ok.injEq, Option.some.injEq] at h
        subst h
        exact ⟨np, by unfold walkSurvLoop; exact hs, hb⟩
  | s2 :: rest2, step, paths, p, h => by
    unfold walkLoop at h
    cases hs : walkStep fuel g paths step with
    | error e => rw [hs, eBind_err] at h; exact absurd h (by simp)
    | ok np =>
      rw [hs, eBind_ok] at h
      by_cases hemp : np.isEmpty
      · rw [if_pos hemp] at h
        exact absurd h (by simp)
      · rw [if_neg hemp] at h
        obtain ⟨l, hsurv, hbest⟩ := walkLoop_survivors fuel g rest2 s2 np p h
        refine ⟨l, ?_, hbest⟩
        unfold walkSurvLoop
        rw [hs, eBind_ok, if_neg hemp]
        exact hsurv

/-- Claim C2: when walkQuery succeeds, the returned path comes from
`findBestPath` applied to the survivors of the last step, so it belongs to
that survivor list, its cost is less than or equal to the cost of every
survivor (in particular of every survivor with the same terminal
`(subgraphId, typeName)`), and ties go to the first-discovered survivor:
every survivor strictly before the returned one in discovery order is
strictly more expensive. -/
theorem claim2_min_cost (fuel : Nat) (g : Graph) (ot : OperationType)
    (s : Step) (rest : List Step) (p : OperationPath)
    (h : walkQueryModel fuel g ot (s :: rest) = .ok (some p)) :
    ∃ l, walkSurvivorsModel fuel g ot (s :: rest) = .ok l
      ∧ p ∈ l ∧ (∀ q ∈ l, p.cost ≤ q.cost)
      ∧ ∃ pre post, l = pre ++ p :: post ∧ ∀ q ∈ pre, p.cost < q.cost := by
  unfold walkQueryModel at h
  cases hn : g.nodesOfE (operationTypeToTypeName ot) with
  | error e => rw [hn, eBind_err] at h; exact absurd h (by simp)
  | ok nodes =>
    rw [hn, eBind_ok] at h
    obtain ⟨l, hsurv, hbest⟩ := walkLoop_survivors fuel g rest s
      (nodes.map (fun n => OperationPath.mk n [] [] 0)) p h
    obtain ⟨hmin, pre, post, hdec, hpre⟩ := findBestPath_spec l p hbest
    refine ⟨l, ?_, ?_, hmin, pre, post, hdec, hpre⟩
    · unfold walkSurvivorsModel
      rw [hn, eBind_ok]
      exact hsurv
    · rw [hdec]
      exact List.mem_append_right _ (List.mem_cons_self _ _)

/-- Witness for `claim2_min_cost`: the single-step walk `users` on the
plan.ts graph returns the one-edge path `Query/B --users--> User/B`. -/
theorem claim2_witness :
    ∃ l, walkSurvivorsModel 20 demoGraph1 OperationType.query [⟨"users"⟩] = .ok l
      ∧ pathUsersW ∈ l ∧ (∀ q ∈ l, pathUsersW.cost ≤ q.cost)
      ∧ ∃ pre post, l = pre ++ pathUsersW :: post
          ∧ ∀ q ∈ pre, pathUsersW.cost < q.cost :=
  claim2_min_cost 20 demoGraph1 OperationType.query ⟨"users"⟩ [] pathUsersW (by rfl)

theorem ePure {α : Type} (a : α) : (pure a : Except String α) = Except.ok a := rfl

theorem entityReqStep_spec (path : OperationPath)
    (acc acc' : List EntityRequirement) (i : Nat)
    (h : entityReqStep path acc i = .ok acc')
    (hacc : ∀ r ∈ acc, ∃ j e, path.edges.get? j = some e
      ∧ e.move = Move.entityMove ∧ (∃ req, e.requirement = some req)
      ∧ r.flattenPath = flattenPathSpec path.edges j) :
    ∀ r ∈ acc', ∃ j e, path.edges.get? j = some e
      ∧ e.move = Move.entityMove ∧ (∃ req, e.requirement = some req)
      ∧ r.flattenPath = flattenPathSpec path.edges j := by
  unfold entityReqStep at h
  split at h
  · simp only [Except.ok.injEq] at h
    subst h
    exact hacc
  · next edge hg =>
    split at h
    · next hm =>
      split at h
      · next requirement hr =>
        rw [hm] at h
        simp only [isListFieldMove, if_neg] at h
        split at h
        · exact absurd h (by simp)
        · next targetField htf =>
          simp only [Except.ok.injEq] at h
          subst h
          intro r hrr
          rcases List.mem_append.mp hrr with hin | hin
          · exact hacc r hin
          · rw [List.mem_singleton.mp hin]
            exact ⟨i, edge, hg, hm, ⟨requirement, hr⟩, rfl⟩
      · simp only [Except.ok.injEq] at h
        subst h
        exact hacc
    · simp only [Except.ok.injEq] at h
      subst h
      exact hacc

theorem findEntityReqs_fold (path : OperationPath) :
    ∀ (idxs : List Nat) (acc reqs : List EntityRequirement),
    idxs.foldlM (entityReqStep path) acc = .ok reqs →
    (∀ r ∈ acc, ∃ j e, path.edges.get? j = some e
      ∧ e.move = Move.entityMove ∧ (∃ req, e.requirement = some req)
      ∧ r.flattenPath = flattenPathSpec path.edges j) →
    ∀ r ∈ reqs, ∃ j e, path.edges.get? j = some e
      ∧ e.move = Move.entityMove ∧ (∃ req, e.requirement = some req)
      ∧ r.flattenPath = flattenPathSpec path.edges j
  | [], acc, reqs, h, hacc => by
    simp only [List.foldlM_nil, ePure, Except.ok.injEq] at h
    subst h
    exact hacc
  | i :: rest, acc, reqs, h, hacc => by
    simp only [List.foldlM_cons] at h
    cases hstep : entityReqStep path acc i with
    | error e => rw [hstep, eBind_err] at h; exact absurd h (by simp)
    | ok acc' =>
      rw [hstep, eBind_ok] at h
      exact findEntityReqs_fold path rest acc' reqs h
        (entityReqStep_spec path acc acc' i hstep hacc)

theorem entity_fetch_paths (reqs : List EntityRequirement) :
    (reqs.map createEntityFetchNode).filterMap
      (fun n => match n with | QueryPlanNode.flatten path _ => some path | _ => none)
      = reqs.map EntityRequirement.flattenPath := by
  induction reqs with
  | nil => rfl
  | cons r rest ih => simp only [List.map_cons, List.filterMap_cons, createEntityFetchNode, ih]

theorem flattenPathsOf_assemble (front : List QueryPlanNode)
    (reqs : List EntityRequirement)
    (hfront : front = [] ∨ ∃ s r o, front = [QueryPlanNode.fetch s r o]) :
    flattenPathsOf ⟨match front ++ reqs.map createEntityFetchNode with
      | [node] => node
      | _ => QueryPlanNode.sequence (front ++ reqs.map createEntityFetchNode)⟩
    = reqs.map EntityRequirement.flattenPath := by
  rcases hfront with h0 | ⟨s, r, o, h1⟩
  · subst h0
    cases reqs with
    | nil => rfl
    | cons r0 rest =>
      cases rest with
      | nil => rfl
      | cons r1 rest2 => exact entity_fetch_paths (r0 :: r1 :: rest2)
  · subst h1
    cases reqs with
    | nil => rfl
    | cons r0 rest => exact entity_fetch_paths (r0 :: rest)

/-- Claim C7: every Flatten node `generateQueryPlan` emits comes from an
entity-move edge carrying a requirement, and its `path` is exactly the
specification's flatten path — the field names of the `FieldMove` edges
from the root up to that edge's head, with `"@"` appended immediately after
every list-returning field (`flattenPathSpec`). -/
theorem claim7_flatten_paths (p : OperationPath) :
    (match findEntityRequirements p with
     | .ok reqs =>
        (∀ r ∈ reqs, ∃ i e, p.edges.get? i = some e
           ∧ e.move = Move.entityMove ∧ (∃ req, e.requirement = some req)
           ∧ r.flattenPath = flattenPathSpec p.edges i)
        ∧ (match generateQueryPlan p with
           | .ok plan => flattenPathsOf plan = reqs.map EntityRequirement.flattenPath
           | .error _ => True)
     | .error _ => True) := by
  cases hreq : findEntityRequirements p with
  | error e => exact trivial
  | ok reqs =>
    refine ⟨?_, ?_⟩
    · exact findEntityReqs_fold p (List.range p.edges.length) [] reqs hreq (by simp)
    · cases hplan : generateQueryPlan p with
      | error e => exact trivial
      | ok plan =>
        unfold generateQueryPlan at hplan
        rw [hreq, eBind_ok] at hplan
        cases hseg : groupPathByService p with
        | nil =>
          rw [hseg] at hplan
          simp only [ePure, eBind_ok, Except.ok.injEq] at hplan
          subst hplan
          exact flattenPathsOf_assemble [] reqs (Or.inl rfl)
        | cons firstSegment restSeg =>
          rw [hseg] at hplan
          dsimp only at hplan
          cases hop : buildOperationFromPathSegment firstSegment.edges with
          | error e2 =>
            rw [show createFetchNode firstSegment.graphId firstSegment.edges
              = Except.error e2 by unfold createFetchNode; rw [hop, eBind_err]] at hplan
            rw [eBind_err] at hplan
            exact absurd hplan (by simp)
          | ok op =>
            rw [show createFetchNode firstSegment.graphId firstSegment.edges
              = Except.ok (QueryPlanNode.fetch firstSegment.graphId none op) by
                unfold createFetchNode; rw [hop, eBind_ok]] at hplan
            simp only [ePure, eBind_ok, Except.ok.injEq] at hplan
            subst hplan
            exact flattenPathsOf_assemble
              [QueryPlanNode.fetch firstSegment.graphId none op] reqs
              (Or.inr ⟨_, _, _, rfl⟩)

theorem charsLe_refl : ∀ (s : List Char), charsLe s s = true
  | [] => rfl
  | c :: cs => by
    unfold charsLe
    rw [if_neg (lt_irrefl c.toNat), if_neg (lt_irrefl c.toNat)]
    exact charsLe_refl cs

theorem charsLe_total : ∀ (s t : List Char),
    charsLe s t = true ∨ charsLe t s = true
  | [], _ => Or.inl rfl
  | _ :: _, [] => Or.inr rfl
  | c :: cs, d :: ds => by
    unfold charsLe
    by_cases h1 : c.toNat < d.toNat
    · rw [if_pos h1]
      exact Or.inl rfl
    · by_cases h2 : d.toNat < c.toNat
      · right
        rw [if_pos h2]
      · rw [if_neg h1, if_neg h2, if_neg h2, if_neg h1]
        exact charsLe_total cs ds

theorem charsLe_trans : ∀ (s t u : List Char),
    charsLe s t = true → charsLe t u = true → charsLe s u = true
  | [], _, _, _, _ => rfl
  | c :: cs, [], u, h1, _ => by simp [charsLe] at h1
  | c :: cs, d :: ds, [], _, h2 => by simp [charsLe] at h2
  | c :: cs, d :: ds, e :: es, h1, h2 => by
    unfold charsLe at h1 h2 ⊢
    by_cases hcd : c.toNat < d.toNat
    · by_cases hde : d.toNat < e.toNat
      · rw [if_pos (lt_trans hcd hde)]
      · rw [if_neg hde] at h2
        by_cases hed : e.toNat < d.toNat
        · rw [if_pos hed] at h2
          exact absurd h2 (by simp)
        · have : d.toNat = e.toNat := by omega
          rw [if_pos (this ▸ hcd)]
    · rw [if_neg hcd] at h1
      by_cases hdc : d.toNat < c.toNat
      · rw [if_pos hdc] at h1
        exact absurd h1 (by simp)
      · have hcdeq : c.toNat = d.toNat := by omega
        rw [if_neg hdc] at h1
        by_cases hde : d.toNat < e.toNat
        · rw [if_pos (hcdeq ▸ hde)]
        · rw [if_neg hde] at h2
          by_cases hed : e.toNat < d.toNat
          · rw [if_pos hed] at h2
            exact absurd h2 (by simp)
          · have hdeeq : d.toNat = e.toNat := by omega
            rw [if_neg hed] at h2
            rw [if_neg (by omega : ¬ c.toNat < e.toNat),
              if_neg (by omega : ¬ e.toNat < c.toNat)]
            exact charsLe_trans cs ds es h1 h2

theorem charsLe_antisymm : ∀ (s t : List Char),
    charsLe s t = true → charsLe t s = true → s = t
  | [], [], _, _ => rfl
  | [], _ :: _, _, h2 => by simp [charsLe] at h2
  | _ :: _, [], h1, _ => by simp [charsLe] at h1
  | c :: cs, d :: ds, h1, h2 => by
    unfold charsLe at h1 h2
    by_cases hcd : c.toNat < d.toNat
    · rw [if_neg (by omega : ¬ d.toNat < c.toNat), if_pos hcd] at h2
      exact absurd h2 (by simp)
    · by_cases hdc : d.toNat < c.toNat
      · rw [if_neg hcd, if_pos hdc] at h1
        exact absurd h1 (by simp)
      · have heq : c.toNat = d.toNat := by omega
        have hc : c = d := by
          have hv : c.val.toBitVec.toNat = d.val.toBitVec.toNat := heq
          have : c.val = d.val := by
            apply UInt32.eq_of_toBitVec_eq
            exact BitVec.eq_of_toNat_eq hv
          cases c; cases d
          simp_all
        rw [if_neg hcd, if_neg hdc] at h1
        rw [if_neg hdc, if_neg hcd] at h2
        rw [hc, charsLe_antisymm cs ds h1 h2]

theorem strLeb_total (a b : String) : strLeb a b = true ∨ strLeb b a = true :=
  charsLe_total a.data b.data

theorem strLeb_trans {a b c : String} (h1 : strLeb a b = true)
    (h2 : strLeb b c = true) : strLeb a c = true :=
  charsLe_trans a.data b.data c.data h1 h2

theorem strLeb_antisymm {a b : String} (h1 : strLeb a b = true)
    (h2 : strLeb b a = true) : a = b := by
  have := charsLe_antisymm a.data b.data h1 h2
  cases a; cases b; simp_all

theorem selLeb_refl (a : SelectionNode) : selLeb a a = true := by
  unfold selLeb
  rw [if_neg (lt_irrefl _), if_neg (lt_irrefl _)]
  exact charsLe_refl _

theorem selLeb_total (a b : SelectionNode) :
    selLeb a b = true ∨ selLeb b a = true := by
  unfold selLeb
  by_cases h1 : (selRank a).1 < (selRank b).1
  · rw [if_pos h1]
    exact Or.inl rfl
  · by_cases h2 : (selRank b).1 < (selRank a).1
    · right
      rw [if_pos h2]
    · rw [if_neg h1, if_neg h2, if_neg h2, if_neg h1]
      exact strLeb_total _ _

theorem selLeb_trans {a b c : SelectionNode} (h1 : selLeb a b = true)
    (h2 : selLeb b c = true) : selLeb a c = true := by
  unfold selLeb at h1 h2 ⊢
  by_cases hab : (selRank a).1 < (selRank b).1
  · by_cases hbc : (selRank b).1 < (selRank c).1
    · rw [if_pos (lt_trans hab hbc)]
    · rw [if_neg hbc] at h2
      by_cases hcb : (selRank c).1 < (selRank b).1
      · rw [if_pos hcb] at h2
        exact absurd h2 (by simp)
      · have : (selRank b).1 = (selRank c).1 := by omega
        rw [if_pos (this ▸ hab)]
  · rw [if_neg hab] at h1
    by_cases hba : (selRank b).1 < (selRank a).1
    · rw [if_pos hba] at h1
      exact absurd h1 (by simp)
    · have habq : (selRank a).1 = (selRank b).1 := by omega
      rw [if_neg hba] at h1
      by_cases hbc : (selRank b).1 < (selRank c).1
      · rw [if_pos (habq ▸ hbc)]
      · rw [if_neg hbc] at h2
        by_cases hcb : (selRank c).1 < (selRank b).1
        · rw [if_pos hcb] at h2
          exact absurd h2 (by simp)
        · have : (selRank b).1 = (selRank c).1 := by omega
          rw [if_neg hcb] at h2
          rw [if_neg (by omega : ¬ (selRank a).1 < (selRank c).1),
            if_neg (by omega : ¬ (selRank c).1 < (selRank a).1)]
          exact strLeb_trans h1 h2

theorem selLeb_antisymm_rank {a b : SelectionNode} (h1 : selLeb a b = true)
    (h2 : selLeb b a = true) : selRank a = selRank b := by
  unfold selLeb at h1 h2
  by_cases hab : (selRank a).1 < (selRank b).1
  · rw [if_neg (by omega : ¬ (selRank b).1 < (selRank a).1), if_pos hab] at h2
    exact absurd h2 (by simp)
  · by_cases hba : (selRank b).1 < (selRank a).1
    · rw [if_neg hab, if_pos hba] at h1
      exact absurd h1 (by simp)
    · rw [if_neg hab, if_neg hba] at h1
      rw [if_neg hba, if_neg hab] at h2
      have h3 := strLeb_antisymm h1 h2
      have h4 : (selRank a).1 = (selRank b).1 := by omega
      exact Prod.ext h4 h3

theorem orderedInsertSel_perm (x : SelectionNode) :
    ∀ (l : List SelectionNode), (orderedInsertSel x l).Perm (x :: l)
  | [] => List.Perm.refl _
  | y :: ys => by
    unfold orderedInsertSel
    by_cases h : selLeb x y
    · rw [if_pos h]
    · rw [if_neg h]
      exact ((orderedInsertSel_perm x ys).cons y).trans (List.Perm.swap x y ys)

theorem sortSelectionSet_perm :
    ∀ (l : List SelectionNode), (sortSelectionSet l).Perm l
  | [] => List.Perm.refl _
  | a :: l => by
    show (orderedInsertSel a (sortSelectionSet l)).Perm _
    exact (orderedInsertSel_perm a (sortSelectionSet l)).trans
      ((sortSelectionSet_perm l).cons a)

theorem orderedInsertSel_sorted (x : SelectionNode) :
    ∀ (l : List SelectionNode),
    l.Pairwise (fun a b => selLeb a b = true) →
    (orderedInsertSel x l).Pairwise (fun a b => selLeb a b = true)
  | [], _ => List.pairwise_singleton _ _
  | y :: ys, h => by
    unfold orderedInsertSel
    by_cases hxy : selLeb x y = true
    · rw [if_pos hxy]
      refine List.Pairwise.cons ?_ h
      intro z hz
      rcases List.mem_cons.mp hz with hz | hz
      · rw [hz]; exact hxy
      · exact selLeb_trans hxy (List.rel_of_pairwise_cons h hz)
    · rw [if_neg hxy]
      have hyx : selLeb y x = true := (selLeb_total x y).resolve_left hxy
      refine List.Pairwise.cons ?_ (orderedInsertSel_sorted x ys h.of_cons)
      intro z hz
      have hz' : z ∈ x :: ys := (orderedInsertSel_perm x ys).mem_iff.mp hz
      rcases List.mem_cons.mp hz' with hz' | hz'
      · rw [hz']; exact hyx
      · exact List.rel_of_pairwise_cons h hz'

theorem sortSelectionSet_sorted :
    ∀ (l : List SelectionNode),
    (sortSelectionSet l).Pairwise (fun a b => selLeb a b = true)
  | [] => List.Pairwise.nil
  | a :: l => by
    show (orderedInsertSel a (sortSelectionSet l)).Pairwise _
    exact orderedInsertSel_sorted a (sortSelectionSet l) (sortSelectionSet_sorted l)

theorem sorted_perm_rank_inj_eq :
    ∀ (l1 l2 : List SelectionNode), l1.Perm l2 →
    l1.Pairwise (fun a b => selLeb a b = true) →
    l2.Pairwise (fun a b => selLeb a b = true) →
    (∀ a ∈ l1, ∀ b ∈ l1, selRank a = selRank b → a = b) →
    l1 = l2
  | [], l2, hperm, _, _, _ => by
    rw [hperm.nil_eq]
  | a :: t1, l2, hperm, h1, h2, hinj => by
    cases l2 with
    | nil => exact absurd hperm.symm.nil_eq (by simp)
    | cons b t2 =>
      have hab : a = b := by
        have hamem : a ∈ b :: t2 := hperm.mem_iff.mp (List.mem_cons_self a t1)
        have hbmem : b ∈ a :: t1 := hperm.symm.mem_iff.mp (List.mem_cons_self b t2)
        have hle1 : selLeb a b = true := by
          rcases List.mem_cons.mp hbmem with hb | hb
          · rw [hb]; exact selLeb_refl a
          · exact List.rel_of_pairwise_cons h1 hb
        have hle2 : selLeb b a = true := by
          rcases List.mem_cons.mp hamem with ha | ha
          · rw [ha]; exact selLeb_refl b
          · exact List.rel_of_pairwise_cons h2 ha
        rcases List.mem_cons.mp hbmem with hb | hb
        · exact hb.symm
        · exact hinj a (List.mem_cons_self a t1) b (List.mem_cons_of_mem _ hb)
            (selLeb_antisymm_rank hle1 hle2)
      subst hab
      have htails : t1.Perm t2 := hperm.cons_inv
      have := sorted_perm_rank_inj_eq t1 t2 htails h1.of_cons h2.of_cons
        (fun x hx y hy hr =>
          hinj x (List.mem_cons_of_mem _ hx) y (List.mem_cons_of_mem _ hy) hr)
      rw [this]

theorem sortSelectionSet_congr (l1 l2 : List SelectionNode)
    (hperm : l1.Perm l2)
    (hinj : ∀ a ∈ l1, ∀ b ∈ l1, selRank a = selRank b → a = b) :
    sortSelectionSet l1 = sortSelectionSet l2 := by
  apply sorted_perm_rank_inj_eq
  · exact (sortSelectionSet_perm l1).trans (hperm.trans (sortSelectionSet_perm l2).symm)
  · exact sortSelectionSet_sorted l1
  · exact sortSelectionSet_sorted l2
  · intro a ha b hb hr
    exact hinj a ((sortSelectionSet_perm l1).mem_iff.mp ha)
      b ((sortSelectionSet_perm l1).mem_iff.mp hb) hr

/-- Unfolding equation of `resolveFieldNode` at `fuel + 1`, with the
inlined selection-set loop re-expressed through `resolveSelectionStep`
(the two are definitionally equal). -/
theorem resolveFieldNode_succ (fuel : Nat) (sg : Subgraph) (tn fn : String)
    (sub? : Option (List ASTSelection)) :
    resolveFieldNode (fuel + 1) sg tn fn sub? =
    (if fn == "__typename" then Except.ok []
     else
       match assocGet sg.types tn with
       | none => Except.error ("Invariant failed: Type \"" ++ tn ++ "\" is not defined.")
       | some typeState =>
         match typeState.fields.find? (fun f => f.name == fn) with
         | none => Except.error ("Invariant failed: Field \"" ++ fn ++ "\" is not defined.")
         | some field =>
           match sub? with
           | some ss => do
             let nested ← ss.foldlM (resolveSelectionStep fuel sg field.type) []
             Except.ok [SelectionNode.field tn fn (some (sortSelectionSet nested))]
           | none => Except.ok [SelectionNode.field tn fn none]) := rfl
/-- Concatenation distributes over the `__typename`-freeness check. -/
theorem noTypenameList_append : ∀ (l1 l2 : List SelectionNode),
    noTypenameList (l1 ++ l2) = (noTypenameList l1 && noTypenameList l2)
  | [], l2 => by simp [noTypenameList]
  | s :: rest, l2 => by
    rw [List.cons_append]
    simp only [noTypenameList]
    rw [noTypenameList_append rest l2, Bool.and_assoc]

/-- Elements of a `__typename`-free list are `__typename`-free. -/
theorem noTypenameList_mem : ∀ (l : List SelectionNode),
    noTypenameList l = true → ∀ s ∈ l, noTypenameNode s = true
  | [], _, _, hs => absurd hs (by simp)
  | a :: rest, h, s, hs => by
    simp only [noTypenameList, Bool.and_eq_true] at h
    rcases List.mem_cons.mp hs with rfl | hs
    · exact h.1
    · exact noTypenameList_mem rest h.2 s hs

/-- A list of `__typename`-free nodes is `__typename`-free. -/
theorem noTypenameList_of_forall : ∀ (l : List SelectionNode),
    (∀ s ∈ l, noTypenameNode s = true) → noTypenameList l = true
  | [], _ => rfl
  | a :: rest, h => by
    simp only [noTypenameList, Bool.and_eq_true]
    exact ⟨h a (List.mem_cons_self a rest),
      noTypenameList_of_forall rest (fun s hs => h s (List.mem_cons_of_mem _ hs))⟩

/-- Permutation preserves `__typename`-freeness. -/
theorem noTypenameList_of_perm {l1 l2 : List SelectionNode} (hp : l1.Perm l2)
    (h : noTypenameList l1 = true) : noTypenameList l2 = true :=
  noTypenameList_of_forall l2 (fun s hs => noTypenameList_mem l1 h s (hp.mem_iff.mpr hs))

/-- A monadic fold whose step preserves `__typename`-freeness of its
accumulator produces a `__typename`-free result. -/
theorem foldlM_noTypename
    (g : List SelectionNode → ASTSelection → Except String (List SelectionNode))
    (hg : ∀ acc s out, noTypenameList acc = true → g acc s = Except.ok out →
      noTypenameList out = true) :
    ∀ (ss : List ASTSelection) (acc : List SelectionNode),
    noTypenameList acc = true → ∀ out, ss.foldlM g acc = Except.ok out →
    noTypenameList out = true
  | [], acc, hacc, out, h => by
    rw [List.foldlM_nil, ePure] at h
    cases h
    exact hacc
  | s :: ss, acc, hacc, out, h => by
    rw [List.foldlM_cons] at h
    cases hg1 : g acc s with
    | error e => rw [hg1, eBind_err] at h; exact absurd h (by simp)
    | ok acc2 =>
      rw [hg1, eBind_ok] at h
      exact foldlM_noTypename g hg ss acc2 (hg acc s acc2 hacc hg1) out h
/-- Every selection-node list produced by `resolveFieldNode` is free of
fields named `__typename` at every depth: the resolver drops such fields
before recursing into them. -/
theorem resolveFieldNode_noTypename : ∀ (fuel : Nat) (sg : Subgraph)
    (tn fn : String) (sub? : Option (List ASTSelection))
    (ns : List SelectionNode),
    resolveFieldNode fuel sg tn fn sub? = Except.ok ns →
    noTypenameList ns = true := by
  intro fuel
  induction fuel with
  | zero =>
    intro sg tn fn sub? ns h
    exact absurd h (by simp [resolveFieldNode])
  | succ fuel ih =>
    intro sg tn fn sub? ns h
    rw [resolveFieldNode_succ] at h
    split at h
    · cases h
      rfl
    · next hty =>
      split at h
      · exact absurd h (by simp)
      · next typeState hts =>
        have hb : (fn == "__typename") = false := by
          revert hty; cases fn == "__typename" <;> simp
        split at h
        · exact absurd h (by simp)
        · next field hfind =>
          split at h
          · next ss =>
            cases hf : ss.foldlM (resolveSelectionStep fuel sg field.type) [] with
            | error e => rw [hf, eBind_err] at h; exact absurd h (by simp)
            | ok nested =>
              rw [hf, eBind_ok] at h
              cases h
              have hnested : noTypenameList nested = true := by
                refine foldlM_noTypename (resolveSelectionStep fuel sg field.type)
                  ?_ ss [] rfl nested hf
                intro acc s out hacc hstep
                cases s with
                | inlineFragment t s2 => exact absurd hstep (by simp [resolveSelectionStep])
                | fragmentSpread n2 => exact absurd hstep (by simp [resolveSelectionStep])
                | field n2 nsub? =>
                  rw [resolveSelectionStep] at hstep
                  cases hr : resolveFieldNode fuel sg field.type n2 nsub? with
                  | error e => rw [hr, eBind_err] at hstep; exact absurd hstep (by simp)
                  | ok ns2 =>
                    rw [hr, eBind_ok] at hstep
                    cases hstep
                    rw [noTypenameList_append, hacc, Bool.true_and]
                    exact ih sg field.type n2 nsub? ns2 hr
              have hsorted : noTypenameList (sortSelectionSet nested) = true :=
                noTypenameList_of_perm (sortSelectionSet_perm nested).symm hnested
              simp [noTypenameList, noTypenameNode, bne, hb, hsorted]
          · cases h
            simp [noTypenameList, noTypenameNode, bne, hb]
/-- One step of the selection-set loop preserves `__typename`-freeness
of the accumulator. -/
theorem resolveSelectionStep_noTypename (fuel : Nat) (sg : Subgraph) (tn : String)
    (acc : List SelectionNode) (s : ASTSelection) (out : List SelectionNode)
    (hacc : noTypenameList acc = true)
    (h : resolveSelectionStep fuel sg tn acc s = Except.ok out) :
    noTypenameList out = true := by
  cases s with
  | inlineFragment t s2 => exact absurd h (by simp [resolveSelectionStep])
  | fragmentSpread n2 => exact absurd h (by simp [resolveSelectionStep])
  | field n2 nsub? =>
    rw [resolveSelectionStep] at h
    cases hr : resolveFieldNode fuel sg tn n2 nsub? with
    | error e => rw [hr, eBind_err] at h; exact absurd h (by simp)
    | ok ns2 =>
      rw [hr, eBind_ok] at h
      cases h
      rw [noTypenameList_append, hacc, Bool.true_and]
      exact resolveFieldNode_noTypename fuel sg tn n2 nsub? ns2 hr

/-- The resolved, canonically sorted selection set of
`resolveSelectionSetNode` (from the empty accumulator) is
`__typename`-free. -/
theorem resolveSelectionSetNode_noTypename (fuel : Nat) (sg : Subgraph)
    (tn : String) (sels : List ASTSelection) (out : List SelectionNode)
    (h : resolveSelectionSetNode fuel sg tn sels [] = Except.ok out) :
    noTypenameList out = true := by
  rw [resolveSelectionSetNode] at h
  cases hf : sels.foldlM (resolveSelectionStep fuel sg tn) [] with
  | error e => rw [hf, eBind_err] at h; exact absurd h (by simp)
  | ok mid =>
    rw [hf, eBind_ok] at h
    cases h
    have hmid : noTypenameList mid = true :=
      foldlM_noTypename (resolveSelectionStep fuel sg tn)
        (fun acc s out2 hacc hstep =>
          resolveSelectionStep_noTypename fuel sg tn acc s out2 hacc hstep)
        sels [] rfl mid hf
    exact noTypenameList_of_perm (sortSelectionSet_perm mid).symm hmid

/-- Claim C10: every `Selection` produced by `SelectionResolver.resolve`
contains no field named `__typename` at any nesting depth — the resolver
silently drops such fields (and their whole sub-selections) instead of
recording or rejecting them. -/
theorem claim10_no_typename (fuel : Nat) (sg : Subgraph) (tn ks : String)
    (sel : Selection)
    (h : SelectionResolver.resolve fuel sg tn ks = Except.ok sel) :
    noTypenameList sel.selectionSet = true := by
  rw [SelectionResolver.resolve] at h
  split at h
  · exact absurd h (by simp)
  · cases hp : parseFields ks with
    | error e => rw [hp, eBind_err] at h; exact absurd h (by simp)
    | ok sels =>
      rw [hp, eBind_ok] at h
      cases hr : resolveSelectionSetNode fuel sg tn sels [] with
      | error e => rw [hr, eBind_err] at h; exact absurd h (by simp)
      | ok nodes =>
        rw [hr, eBind_ok] at h
        cases h
        exact resolveSelectionSetNode_noTypename fuel sg tn sels nodes hr

/-- Witness for C10: resolving `"x __typename"` against type `U` of
`demoSubT` succeeds, drops the `__typename` field, and the claim applies
to the result. -/
theorem claim10_witness :
    SelectionResolver.resolve 5 demoSubT "U" "x __typename" = Except.ok demoTypenameSel
  ∧ noTypenameList demoTypenameSel.selectionSet = true :=
  ⟨by rfl, claim10_no_typename 5 demoSubT "U" "x __typename" demoTypenameSel (by rfl)⟩

/-- A monadic fold whose step fails on every selection containing a live
fragment fails as soon as the list contains one (an earlier error also
counts). -/
theorem foldlM_fragLive_err
    (g : List SelectionNode → ASTSelection → Except String (List SelectionNode))
    (hg : ∀ acc s, astContainsFragmentLive s = true → ∃ e, g acc s = Except.error e) :
    ∀ (ss : List ASTSelection) (acc : List SelectionNode),
    astListContainsFragmentLive ss = true →
    ∃ e, ss.foldlM g acc = Except.error e
  | [], _, h => by simp [astListContainsFragmentLive] at h
  | s :: rest, acc, h => by
    rw [List.foldlM_cons]
    simp only [astListContainsFragmentLive, Bool.or_eq_true] at h
    cases hs : g acc s with
    | error e => exact ⟨e, by rw [eBind_err]⟩
    | ok acc2 =>
      rcases h with h | h
      · rcases hg acc s h with ⟨e, he⟩
        rw [hs] at he
        exact absurd he (by simp)
      · rcases foldlM_fragLive_err g hg rest acc2 h with ⟨e, he⟩
        exact ⟨e, by rw [eBind_ok]; exact he⟩

/-- When the nested selection set of a non-`__typename` field contains a
fragment in live position, `resolveFieldNode` fails with an error (the
fragment rejection, a lookup invariant, or fuel exhaustion — the source
diverges only by which message). -/
theorem resolveFieldNode_fragLive_err : ∀ (fuel : Nat) (sg : Subgraph)
    (tn fn : String) (ss : List ASTSelection),
    (fn == "__typename") = false → astListContainsFragmentLive ss = true →
    ∃ e, resolveFieldNode fuel sg tn fn (some ss) = Except.error e := by
  intro fuel
  induction fuel with
  | zero =>
    intro sg tn fn ss _ _
    exact ⟨"resolver: out of fuel", rfl⟩
  | succ fuel ih =>
    intro sg tn fn ss hfn hss
    rw [resolveFieldNode_succ]
    rw [if_neg (by simp [hfn])]
    cases hat : assocGet sg.types tn with
    | none => exact ⟨_, rfl⟩
    | some ts =>
      cases hfind : ts.fields.find? (fun f => f.name == fn) with
      | none =>
        refine ⟨"Invariant failed: Field \"" ++ fn ++ "\" is not defined.", ?_⟩
        dsimp only
        rw [hfind]
      | some field =>
        have hg : ∀ (acc : List SelectionNode) (s : ASTSelection),
            astContainsFragmentLive s = true →
            ∃ e, resolveSelectionStep fuel sg field.type acc s = Except.error e := by
          intro acc s hs
          cases s with
          | inlineFragment t s2 => exact ⟨_, rfl⟩
          | fragmentSpread n2 => exact ⟨_, rfl⟩
          | field n2 nsub? =>
            cases nsub? with
            | none => simp [astContainsFragmentLive] at hs
            | some ss2 =>
              simp only [astContainsFragmentLive] at hs
              split at hs
              · exact absurd hs (by simp)
              · next hn2 =>
                have hn2f : (n2 == "__typename") = false := by
                  revert hn2; cases n2 == "__typename" <;> simp
                rcases ih sg field.type n2 ss2 hn2f hs with ⟨e, he⟩
                exact ⟨e, by simp only [resolveSelectionStep]; rw [he, eBind_err]⟩
        rcases foldlM_fragLive_err (resolveSelectionStep fuel sg field.type) hg ss [] hss
          with ⟨e, he⟩
        refine ⟨e, ?_⟩
        dsimp only
        rw [hfind]
        dsimp only
        rw [he, eBind_err]

/-- A selection set containing a fragment in live position always makes
`resolveSelectionSetNode` fail. -/
theorem resolveSelectionSetNode_fragLive_err : ∀ (fuel : Nat) (sg : Subgraph) (tn : String)
    (sels : List ASTSelection) (acc : List SelectionNode),
    astListContainsFragmentLive sels = true →
    ∃ e, resolveSelectionSetNode fuel sg tn sels acc = Except.error e := by
  intro fuel sg tn sels acc hlive
  have hg : ∀ (acc2 : List SelectionNode) (s : ASTSelection),
      astContainsFragmentLive s = true →
      ∃ e, resolveSelectionStep fuel sg tn acc2 s = Except.error e := by
    intro acc2 s hs
    cases s with
    | inlineFragment t s2 => exact ⟨_, rfl⟩
    | fragmentSpread n2 => exact ⟨_, rfl⟩
    | field n2 nsub? =>
      cases nsub? with
      | none => simp [astContainsFragmentLive] at hs
      | some ss2 =>
        simp only [astContainsFragmentLive] at hs
        split at hs
        · exact absurd hs (by simp)
        · next hn2 =>
          have hn2f : (n2 == "__typename") = false := by
            revert hn2; cases n2 == "__typename" <;> simp
          cases fuel with
          | zero =>
            exact ⟨"resolver: out of fuel", by simp only [resolveSelectionStep]; rfl⟩
          | succ fuel =>
            rcases resolveFieldNode_fragLive_err (fuel + 1) sg tn n2 ss2 hn2f hs
              with ⟨e, he⟩
            exact ⟨e, by simp only [resolveSelectionStep]; rw [he, eBind_err]⟩
  rcases foldlM_fragLive_err (resolveSelectionStep fuel sg tn) hg sels acc hlive
    with ⟨e, he⟩
  exact ⟨e, by rw [resolveSelectionSetNode, he, eBind_err]⟩

/-- When an edge requirement's selection set starts with a fragment node,
`canSatisfyEdge` fails with the walker's fragment error: the requirement
queue seeds one `MoveRequirement` per selection node and `satisfyLoop`
throws on the first fragment it pops. -/
theorem canSatisfyEdge_fragment_err (fuel : Nat) (graph : Graph) (edge : Edge)
    (path : OperationPath) (excluded : Excluded) (req : Selection)
    (t : String) (ss rest : List SelectionNode)
    (hreq : edge.requirement = some req)
    (hsel : req.selectionSet = SelectionNode.fragment t ss :: rest) :
    (walkFns (fuel + 2)).canSatisfyEdge graph edge path excluded =
      Except.error "Fragment is not yet supported" := by
  have h1 : (walkFns (fuel + 2)).canSatisfyEdge graph edge path excluded
      = match edge.requirement with
        | none => Except.ok (true, [])
        | some requirement =>
          (walkFns (fuel + 1)).satisfyLoop graph excluded
            (requirement.selectionSet.map (fun s => ⟨s, [path.clone]⟩)) [] := rfl
  rw [h1, hreq]
  show (walkFns (fuel + 1)).satisfyLoop graph excluded
      (req.selectionSet.map (fun s => ⟨s, [path.clone]⟩)) [] = _
  rw [hsel]
  rfl

/-- Claim C8 (amended): a fragment makes planning fail only when it sits in
live position.  (a) `resolveSelectionSetNode` fails whenever the AST
selection set contains an inline fragment or fragment spread outside the
(dropped) selection set of a `__typename` field — contrast
`claim8_counterexample`, where a fragment under `__typename` resolves
successfully.  (b) `canSatisfyEdge` fails with the walker's fragment error
when an edge requirement's selection set reaches a fragment node. -/
theorem claim8_amended :
    (∀ (fuel : Nat) (sg : Subgraph) (tn : String)
       (sels : List ASTSelection) (acc : List SelectionNode),
       astListContainsFragmentLive sels = true →
       ∃ e, resolveSelectionSetNode fuel sg tn sels acc = Except.error e)
  ∧ (∀ (fuel : Nat) (graph : Graph) (edge : Edge) (path : OperationPath)
       (excluded : Excluded) (req : Selection) (t : String)
       (ss rest : List SelectionNode),
       edge.requirement = some req →
       req.selectionSet = SelectionNode.fragment t ss :: rest →
       (walkFns (fuel + 2)).canSatisfyEdge graph edge path excluded =
         Except.error "Fragment is not yet supported") :=
  ⟨fun fuel sg tn sels acc h =>
    resolveSelectionSetNode_fragLive_err fuel sg tn sels acc h,
   fun fuel graph edge path excluded req t ss rest hreq hsel =>
    canSatisfyEdge_fragment_err fuel graph edge path excluded req t ss rest
      hreq hsel⟩

/-- Witness for C8 (amended): a top-level inline fragment makes resolution
against `demoSubT` fail, and `canSatisfyEdge` on `edgeFragReq` (whose
requirement starts with a fragment node) fails with the fragment error. -/
theorem claim8_amended_witness :
    (∃ e, resolveSelectionSetNode 5 demoSubT "T"
        [ASTSelection.inlineFragment "U" [ASTSelection.field "x" none]] []
        = Except.error e)
  ∧ (walkFns 2).canSatisfyEdge demoGraph1 edgeFragReq pathUsersW Excluded.empty
      = Except.error "Fragment is not yet supported" :=
  ⟨claim8_amended.1 5 demoSubT "T"
      [ASTSelection.inlineFragment "U" [ASTSelection.field "x" none]] [] (by rfl),
   claim8_amended.2 0 demoGraph1 edgeFragReq pathUsersW Excluded.empty
     ⟨"User", "fragfirst", [SelectionNode.fragment "User" []]⟩
     "User" [] [] (by rfl) (by rfl)⟩

/-- Inversion of a successful `Except` bind. -/
theorem eBind_inv {α β : Type} {x : Except String α} {f : α → Except String β} {b : β}
    (h : (x >>= f) = Except.ok b) : ∃ a, x = Except.ok a ∧ f a = Except.ok b := by
  cases x with
  | error e => rw [eBind_err] at h; exact absurd h (by simp)
  | ok a => rw [eBind_ok] at h; exact ⟨a, rfl, h⟩

/-- `resolveSelectionStep` touches its accumulator only by appending the
field resolution to it. -/
theorem step_shift (fuel : Nat) (sg : Subgraph) (t : String)
    (acc : List SelectionNode) (s : ASTSelection) :
    resolveSelectionStep fuel sg t acc s
      = Except.map (fun r => acc ++ r) (resolveSelectionStep fuel sg t [] s) := by
  cases s with
  | inlineFragment t2 s2 => rfl
  | fragmentSpread n2 => rfl
  | field nn sub? =>
    simp only [resolveSelectionStep]
    cases h : resolveFieldNode fuel sg t nn sub? with
    | error e => simp [eBind_err, Except.map]
    | ok ns => simp [eBind_ok, Except.map]

/-- The selection-set fold touches its accumulator only by appending: the
result from `acc` is the result from `[]` prefixed with `acc`. -/
theorem fold_shift (fuel : Nat) (sg : Subgraph) (t : String) :
    ∀ (ss : List ASTSelection) (acc : List SelectionNode),
    ss.foldlM (resolveSelectionStep fuel sg t) acc
      = Except.map (fun r => acc ++ r) (ss.foldlM (resolveSelectionStep fuel sg t) [])
  | [], acc => by simp [List.foldlM_nil, ePure, Except.map]
  | s :: rest, acc => by
    rw [List.foldlM_cons, List.foldlM_cons, step_shift fuel sg t acc s]
    cases h : resolveSelectionStep fuel sg t [] s with
    | error e => simp [Except.map, eBind_err]
    | ok ns =>
      simp only [Except.map, eBind_ok]
      rw [fold_shift fuel sg t rest (acc ++ ns), fold_shift fuel sg t rest ns]
      cases h2 : rest.foldlM (resolveSelectionStep fuel sg t) [] with
      | error e => simp [Except.map]
      | ok r2 => simp [Except.map, List.append_assoc]

/-- Shape of a successful `resolveFieldNode` result: nothing for
`__typename`, exactly one field node (same type and field name) otherwise. -/
theorem rfnShape (fuel : Nat) (sg : Subgraph) (t nn : String)
    (sub? : Option (List ASTSelection)) (r : List SelectionNode)
    (h : resolveFieldNode fuel sg t nn sub? = Except.ok r) :
    (if nn == "__typename" then r = []
     else ∃ sub, r = [SelectionNode.field t nn sub]) := by
  cases fuel with
  | zero => exact absurd h (by simp [resolveFieldNode])
  | succ fuel =>
    rw [resolveFieldNode_succ] at h
    by_cases hty : (nn == "__typename") = true
    · rw [if_pos hty] at h ⊢
      cases h
      rfl
    · rw [if_neg hty] at h ⊢
      cases hat : assocGet sg.types t with
      | none => rw [hat] at h; exact absurd h (by simp)
      | some ts =>
        rw [hat] at h
        dsimp only at h
        cases hfind : ts.fields.find? (fun f => f.name == nn) with
        | none => rw [hfind] at h; exact absurd h (by simp)
        | some field =>
          rw [hfind] at h
          dsimp only at h
          cases sub? with
          | none =>
            cases h
            exact ⟨none, rfl⟩
          | some ss =>
            rcases eBind_inv h with ⟨nested, hf, hok⟩
            cases hok
            exact ⟨some (sortSelectionSet nested), rfl⟩

/-- Shape of a successful selection-set fold: it appends one field node per
non-`__typename` field, in order, so the appended names are exactly
`topFieldNames` and every appended node is a field node of the given
type. -/
theorem foldShape (fuel : Nat) (sg : Subgraph) (t : String) :
    ∀ (ss : List ASTSelection) (acc out : List SelectionNode),
    ss.foldlM (resolveSelectionStep fuel sg t) acc = Except.ok out →
    ∃ r, out = acc ++ r ∧ r.map selNodeName = topFieldNames ss
      ∧ ∀ node ∈ r, ∃ nn sub, node = SelectionNode.field t nn sub
  | [], acc, out, h => by
    rw [List.foldlM_nil, ePure] at h
    cases h
    exact ⟨[], by simp, rfl, by simp⟩
  | s :: rest, acc, out, h => by
    rw [List.foldlM_cons] at h
    rcases eBind_inv h with ⟨acc2, hs, hrest⟩
    cases s with
    | inlineFragment t2 s2 => exact absurd hs (by simp [resolveSelectionStep])
    | fragmentSpread n2 => exact absurd hs (by simp [resolveSelectionStep])
    | field nn sub? =>
      simp only [resolveSelectionStep] at hs
      rcases eBind_inv hs with ⟨ns, hns, hacc2⟩
      cases hacc2
      rcases foldShape fuel sg t rest (acc ++ ns) out hrest with ⟨r2, hout, hnames, hmem⟩
      have hshape := rfnShape fuel sg t nn sub? ns hns
      by_cases hty : (nn == "__typename") = true
      · rw [if_pos hty] at hshape
        subst hshape
        refine ⟨r2, ?_, ?_, hmem⟩
        · rw [hout]; simp
        · simp only [topFieldNames, topName1, hty, if_true, List.nil_append]
          exact hnames
      · rw [if_neg hty] at hshape
        rcases hshape with ⟨sub, rfl⟩
        refine ⟨SelectionNode.field t nn sub :: r2, ?_, ?_, ?_⟩
        · rw [hout]; simp
        · simp [topFieldNames, topName1, hty, selNodeName, hnames]
        · intro node hnode
          rcases List.mem_cons.mp hnode with rfl | hnode
          · exact ⟨nn, sub, rfl⟩
          · exact hmem node hnode

/-- The boolean nodup check agrees with `List.Nodup`. -/
theorem listNodupB_iff_nodup : ∀ (l : List String), listNodupB l = true ↔ l.Nodup
  | [] => by simp [listNodupB]
  | x :: xs => by
    simp only [listNodupB, Bool.and_eq_true, Bool.not_eq_true', List.nodup_cons]
    constructor
    · rintro ⟨h1, h2⟩
      refine ⟨fun hm => ?_, (listNodupB_iff_nodup xs).mp h2⟩
      have h1x : List.elem x xs = false := h1
      rw [List.elem_eq_true_of_mem hm] at h1x
      cases h1x
    · rintro ⟨h1, h2⟩
      refine ⟨?_, (listNodupB_iff_nodup xs).mpr h2⟩
      cases hc : xs.contains x
      · rfl
      · exact absurd (List.mem_of_elem_eq_true hc) h1

/-- `"<tn>.<a>" = "<tn>.<b>"` forces `a = b`. -/
theorem strcat_inj (tn a b : String)
    (h : tn ++ "." ++ a = tn ++ "." ++ b) : a = b := by
  have hd : (tn ++ ".").data ++ a.data = (tn ++ ".").data ++ b.data := by
    have : (tn ++ "." ++ a).data = (tn ++ "." ++ b).data := by rw [h]
    exact this
  have h2 := List.append_cancel_left hd
  cases a; cases b
  exact congrArg String.mk h2

/-- Field nodes of a single type with pairwise-distinct names have
pairwise-distinct sort ranks: equal rank forces equal node. -/
theorem rankInj_of_shape (t : String) :
    ∀ (r : List SelectionNode),
    (∀ node ∈ r, ∃ nn sub, node = SelectionNode.field t nn sub) →
    (r.map selNodeName).Nodup →
    ∀ a ∈ r, ∀ b ∈ r, selRank a = selRank b → a = b
  | [], _, _, a, ha, _, _, _ => absurd ha (by simp)
  | x :: rest, hshape, hnodup, a, ha, b, hb, hr => by
    rw [List.map_cons, List.nodup_cons] at hnodup
    rcases List.mem_cons.mp ha with rfl | ha2 <;>
      rcases List.mem_cons.mp hb with rfl | hb2
    · rfl
    · exfalso
      rcases hshape a (List.mem_cons_self a rest) with ⟨na, sa, hax⟩
      rcases hshape b (List.mem_cons_of_mem _ hb2) with ⟨nb, sb, hbx⟩
      rw [hax, hbx] at hr
      have hn : na = nb := strcat_inj t na nb (congrArg Prod.snd hr)
      apply hnodup.1
      refine List.mem_map.mpr ⟨b, hb2, ?_⟩
      rw [hax, hbx]
      simp [selNodeName, hn]
    · exfalso
      rcases hshape b (List.mem_cons_self b rest) with ⟨nb, sb, hbx⟩
      rcases hshape a (List.mem_cons_of_mem _ ha2) with ⟨na, sa, hax⟩
      rw [hax, hbx] at hr
      have hn : na = nb := strcat_inj t na nb (congrArg Prod.snd hr)
      apply hnodup.1
      refine List.mem_map.mpr ⟨a, ha2, ?_⟩
      rw [hax, hbx]
      simp [selNodeName, hn]
    · exact rankInj_of_shape t rest
        (fun node hn => hshape node (List.mem_cons_of_mem _ hn)) hnodup.2
        a ha2 b hb2 hr

/-- A deep permutation permutes the top-level non-`__typename` field
names. -/
theorem topFieldNames_setPerm : ∀ {l l' : List ASTSelection}, SetPerm l l' →
    (topFieldNames l).Perm (topFieldNames l') := by
  intro l l' hp
  induction hp with
  | nil => exact List.Perm.refl _
  | consFieldNone n hp ih =>
    exact List.Perm.append (List.Perm.refl _) ih
  | consFieldSome n hs hp ihs ih =>
    exact List.Perm.append (List.Perm.refl _) ih
  | consInline t hs hp ihs ih =>
    simpa [topFieldNames, topName1] using ih
  | consSpread n hp ih =>
    simpa [topFieldNames, topName1] using ih
  | swap a b l =>
    show (topName1 a ++ (topName1 b ++ topFieldNames l)).Perm
      (topName1 b ++ (topName1 a ++ topFieldNames l))
    exact List.perm_append_comm_assoc _ _ _
  | trans h1 h2 ih1 ih2 => exact ih1.trans ih2

/-- A deep permutation preserves the element-wise deep-nodup check. -/
theorem nodupDeepAux_setPerm : ∀ {l l' : List ASTSelection}, SetPerm l l' →
    nodupDeepAux l = true → nodupDeepAux l' = true := by
  intro l l' hp
  induction hp with
  | nil => exact id
  | consFieldNone n hp ih =>
    intro h
    simp only [nodupDeepAux, nodupDeepNode, Bool.and_eq_true] at h ⊢
    exact ⟨trivial, ih h.2⟩
  | consFieldSome n hs hp ihs ih =>
    intro h
    simp only [nodupDeepAux, nodupDeepNode, nodupDeepList, Bool.and_eq_true] at h ⊢
    rcases h with ⟨⟨hn, ha⟩, hrest⟩
    refine ⟨⟨?_, ihs ha⟩, ih hrest⟩
    exact (listNodupB_iff_nodup _).mpr
      ((topFieldNames_setPerm hs).nodup_iff.mp ((listNodupB_iff_nodup _).mp hn))
  | consInline t hs hp ihs ih =>
    intro h
    simp only [nodupDeepAux, nodupDeepNode, nodupDeepList, Bool.and_eq_true] at h ⊢
    rcases h with ⟨⟨hn, ha⟩, hrest⟩
    refine ⟨⟨?_, ihs ha⟩, ih hrest⟩
    exact (listNodupB_iff_nodup _).mpr
      ((topFieldNames_setPerm hs).nodup_iff.mp ((listNodupB_iff_nodup _).mp hn))
  | consSpread n hp ih =>
    intro h
    simp only [nodupDeepAux, nodupDeepNode, Bool.and_eq_true] at h ⊢
    exact ⟨trivial, ih h.2⟩
  | swap a b l =>
    intro h
    simp only [nodupDeepAux, Bool.and_eq_true] at h ⊢
    exact ⟨h.2.1, h.1, h.2.2⟩
  | trans h1 h2 ih1 ih2 => exact fun h => ih2 (ih1 h)

/-- A deep permutation preserves the deep-nodup check. -/
theorem nodupDeepList_setPerm {l l' : List ASTSelection} (hp : SetPerm l l')
    (h : nodupDeepList l = true) : nodupDeepList l' = true := by
  simp only [nodupDeepList, Bool.and_eq_true] at h ⊢
  exact ⟨(listNodupB_iff_nodup _).mpr
      ((topFieldNames_setPerm hp).nodup_iff.mp ((listNodupB_iff_nodup _).mp h.1)),
    nodupDeepAux_setPerm hp h.2⟩

/-- Core permutation lemma for the selection-set fold: if the resolution of
each nested selection set is invariant under deep permutation (hypothesis
`hA`, supplied by `rfn_perm` one fuel level up), then deeply permuting a
deep-nodup selection set permutes the fold result and cannot change its
success. -/
theorem foldPerm (fuel : Nat) (sg : Subgraph) (t : String)
    (hA : ∀ (n : String) (s s' : List ASTSelection), SetPerm s s' →
      nodupDeepList s = true → ∀ ns,
      resolveFieldNode fuel sg t n (some s) = Except.ok ns →
      resolveFieldNode fuel sg t n (some s') = Except.ok ns) :
    ∀ {sels sels' : List ASTSelection}, SetPerm sels sels' →
    ∀ (acc out : List SelectionNode), nodupDeepAux sels = true →
    sels.foldlM (resolveSelectionStep fuel sg t) acc = Except.ok out →
    ∃ out', sels'.foldlM (resolveSelectionStep fuel sg t) acc = Except.ok out'
      ∧ out.Perm out' := by
  intro sels sels' hp
  induction hp with
  | nil => exact fun acc out _ h => ⟨out, h, List.Perm.refl _⟩
  | consFieldNone n hp ih =>
    intro acc out hnd h
    rw [List.foldlM_cons] at h ⊢
    rcases eBind_inv h with ⟨acc2, hs, hrest⟩
    rw [hs, eBind_ok]
    simp only [nodupDeepAux, Bool.and_eq_true] at hnd
    exact ih acc2 out hnd.2 hrest
  | consFieldSome n hs hp ihs ih =>
    intro acc out hnd h
    rw [List.foldlM_cons] at h ⊢
    rcases eBind_inv h with ⟨acc2, hstep, hrest⟩
    simp only [nodupDeepAux, nodupDeepNode, Bool.and_eq_true] at hnd
    simp only [resolveSelectionStep] at hstep ⊢
    rcases eBind_inv hstep with ⟨ns, hns, hacc2⟩
    cases hacc2
    rw [hA n _ _ hs hnd.1 ns hns, eBind_ok, eBind_ok]
    exact ih (acc ++ ns) out hnd.2 hrest
  | consInline t2 hs hp ihs ih =>
    intro acc out hnd h
    rw [List.foldlM_cons] at h
    rcases eBind_inv h with ⟨acc2, hstep, _⟩
    exact absurd hstep (by simp [resolveSelectionStep])
  | consSpread n hp ih =>
    intro acc out hnd h
    rw [List.foldlM_cons] at h
    rcases eBind_inv h with ⟨acc2, hstep, _⟩
    exact absurd hstep (by simp [resolveSelectionStep])
  | swap a b l =>
    intro acc out hnd h
    rw [List.foldlM_cons] at h ⊢
    rcases eBind_inv h with ⟨o1, hs1, h2⟩
    rw [List.foldlM_cons] at h2
    rcases eBind_inv h2 with ⟨o2, hs2, hrest⟩
    rw [step_shift] at hs1 hs2
    cases hra : resolveSelectionStep fuel sg t [] a with
    | error e =>
      rw [hra] at hs1
      exact absurd hs1 (by simp [Except.map])
    | ok ra =>
      rw [hra] at hs1
      simp only [Except.map, Except.ok.injEq] at hs1
      subst hs1
      cases hrb : resolveSelectionStep fuel sg t [] b with
      | error e =>
        rw [hrb] at hs2
        exact absurd hs2 (by simp [Except.map])
      | ok rb =>
        rw [hrb] at hs2
        simp only [Except.map, Except.ok.injEq] at hs2
        subst hs2
        rw [fold_shift] at hrest
        cases hrl : l.foldlM (resolveSelectionStep fuel sg t) [] with
        | error e =>
          rw [hrl] at hrest
          exact absurd hrest (by simp [Except.map])
        | ok rl =>
          rw [hrl] at hrest
          simp only [Except.map, Except.ok.injEq] at hrest
          subst hrest
          refine ⟨acc ++ rb ++ ra ++ rl, ?_, ?_⟩
          · rw [step_shift fuel sg t acc b, hrb]
            simp only [Except.map, eBind_ok]
            rw [List.foldlM_cons]
            rw [step_shift fuel sg t (acc ++ rb) a, hra]
            simp only [Except.map, eBind_ok]
            rw [fold_shift, hrl]
            simp [Except.map]
          · have e1 : acc ++ ra ++ rb ++ rl = acc ++ (ra ++ (rb ++ rl)) := by
              simp [List.append_assoc]
            have e2 : acc ++ rb ++ ra ++ rl = acc ++ (rb ++ (ra ++ rl)) := by
              simp [List.append_assoc]
            rw [e1, e2]
            exact List.Perm.append_left acc (List.perm_append_comm_assoc ra rb rl)
  | trans hp1 hp2 ih1 ih2 =>
    intro acc out hnd h
    rcases ih1 acc out hnd h with ⟨out1, h1, hperm1⟩
    rcases ih2 acc out1 (nodupDeepAux_setPerm hp1 hnd) h1 with ⟨out2, h2, hperm2⟩
    exact ⟨out2, h2, hperm1.trans hperm2⟩

/-- `resolveFieldNode` is invariant under deep permutation of a deep-nodup
nested selection set: the distinct top-level names give the resolved nodes
distinct sort ranks, so the canonical sort maps the permuted fold results
to the same list. -/
theorem rfn_perm : ∀ (fuel : Nat) (sg : Subgraph) (t n : String)
    (s s' : List ASTSelection), SetPerm s s' → nodupDeepList s = true →
    ∀ (ns : List SelectionNode),
    resolveFieldNode fuel sg t n (some s) = Except.ok ns →
    resolveFieldNode fuel sg t n (some s') = Except.ok ns := by
  intro fuel
  induction fuel with
  | zero =>
    intro sg t n s s' _ _ ns h
    exact absurd h (by simp [resolveFieldNode])
  | succ fuel ih =>
    intro sg t n s s' hperm hnd ns h
    rw [resolveFieldNode_succ] at h ⊢
    by_cases hty : (n == "__typename") = true
    · rw [if_pos hty] at h ⊢
      exact h
    · rw [if_neg hty] at h ⊢
      cases hat : assocGet sg.types t with
      | none =>
        rw [hat] at h
        exact absurd h (by simp)
      | some ts =>
        rw [hat] at h
        dsimp only at h ⊢
        cases hfind : ts.fields.find? (fun f => f.name == n) with
        | none =>
          rw [hfind] at h
          exact absurd h (by simp)
        | some field =>
          rw [hfind] at h
          dsimp only at h ⊢
          rcases eBind_inv h with ⟨nested, hf, hok⟩
          cases hok
          simp only [nodupDeepList, Bool.and_eq_true] at hnd
          rcases foldPerm fuel sg field.type
              (fun n2 s2 s2' hs2 hnd2 ns2 h2 => ih sg field.type n2 s2 s2' hs2 hnd2 ns2 h2)
              hperm [] nested hnd.2 hf with ⟨nested', hf', hpermN⟩
          rw [hf', eBind_ok]
          rcases foldShape fuel sg field.type s [] nested hf with ⟨r, hr, hnames, hmem⟩
          rw [List.nil_append] at hr
          subst hr
          have hsort : sortSelectionSet nested = sortSelectionSet nested' := by
            apply sortSelectionSet_congr _ _ hpermN
            intro x hx y hy hrk
            refine rankInj_of_shape field.type nested hmem ?_ x hx y hy hrk
            rw [hnames]
            exact (listNodupB_iff_nodup _).mp hnd.1
          rw [hsort]

mutual

/-- Reflexivity of `selectionNodeEqual`. -/
theorem selectionNodeEqual_refl : ∀ (n : SelectionNode), selectionNodeEqual n n = true
  | .field t f none => by simp [selectionNodeEqual]
  | .field t f (some ss) => by
    simp [selectionNodeEqual, selectionSetEqual_refl ss]
  | .fragment t ss => by
    simp [selectionNodeEqual, selectionSetEqual_refl ss]

/-- Reflexivity of `selectionSetEqual`. -/
theorem selectionSetEqual_refl : ∀ (l : List SelectionNode), selectionSetEqual l l = true
  | [] => by simp [selectionSetEqual]
  | a :: as => by
    simp only [selectionSetEqual, Bool.and_eq_true]
    exact ⟨selectionNodeEqual_refl a, selectionSetEqual_refl as⟩

end

/-- `resolveSelectionSetNode` returns the same resolved, sorted selection
set on any deep permutation of a deep-nodup AST selection set. -/
theorem resolveSelectionSetNode_perm (fuel : Nat) (sg : Subgraph) (tn : String)
    {sels sels' : List ASTSelection} (hperm : SetPerm sels sels')
    (hnd : nodupDeepList sels = true) (out : List SelectionNode)
    (h : resolveSelectionSetNode fuel sg tn sels [] = Except.ok out) :
    resolveSelectionSetNode fuel sg tn sels' [] = Except.ok out := by
  rw [resolveSelectionSetNode] at h ⊢
  rcases eBind_inv h with ⟨mid, hf, hok⟩
  cases hok
  simp only [nodupDeepList, Bool.and_eq_true] at hnd
  rcases foldPerm fuel sg tn
      (fun n2 s2 s2' hs2 hnd2 ns2 h2 => rfn_perm fuel sg tn n2 s2 s2' hs2 hnd2 ns2 h2)
      hperm [] mid hnd.2 hf with ⟨mid', hf', hpermM⟩
  rw [hf', eBind_ok]
  rcases foldShape fuel sg tn sels [] mid hf with ⟨r, hr, hnames, hmem⟩
  rw [List.nil_append] at hr
  subst hr
  have hsort : sortSelectionSet mid = sortSelectionSet mid' := by
    apply sortSelectionSet_congr _ _ hpermM
    intro x hx y hy hrk
    refine rankInj_of_shape tn mid hmem ?_ x hx y hy hrk
    rw [hnames]
    exact (listNodupB_iff_nodup _).mp hnd.1
  rw [hsort]

/-- Claim C5 (counterexample): permutation invariance of the resolver fails
when a field name repeats: `"a \x7b x \x7d a \x7b y \x7d"` parses, swapping the
two `a` fields is a deep permutation, and the two resolutions are not
`Selection#equals` — the duplicate `a` nodes share a sort rank, so the
stable sort preserves their original relative order. -/
theorem claim5_counterexample :
    parseFields "a \x7b x \x7d a \x7b y \x7d"
      = Except.ok [ASTSelection.field "a" (some [ASTSelection.field "x" none]),
                   ASTSelection.field "a" (some [ASTSelection.field "y" none])]
  ∧ SetPerm [ASTSelection.field "a" (some [ASTSelection.field "x" none]),
             ASTSelection.field "a" (some [ASTSelection.field "y" none])]
            [ASTSelection.field "a" (some [ASTSelection.field "y" none]),
             ASTSelection.field "a" (some [ASTSelection.field "x" none])]
  ∧ (match SelectionResolver.resolve 5 demoSubT "T" "a \x7b x \x7d a \x7b y \x7d",
           SelectionResolver.resolve 5 demoSubT "T" "a \x7b y \x7d a \x7b x \x7d" with
     | Except.ok s1, Except.ok s2 => s1.equals s2
     | _, _ => true) = false :=
  ⟨by rfl, SetPerm.swap _ _ _, by rfl⟩

/-- Claim C5 (amended): for deep-nodup key-field selections the claim
holds — if `ks` and `ks'` parse to deeply-permuted AST selection sets and
the names are pairwise distinct at every nesting level, a successful
`resolve(tn, ks)` forces `resolve(tn, ks')` to succeed with an
`equals`-equal Selection. -/
theorem claim5_amended (fuel : Nat) (sg : Subgraph) (tn ks ks' : String)
    (sels sels' : List ASTSelection) (sel : Selection)
    (hp : parseFields ks = Except.ok sels)
    (hp' : parseFields ks' = Except.ok sels')
    (hperm : SetPerm sels sels')
    (hnd : nodupDeepList sels = true)
    (h : SelectionResolver.resolve fuel sg tn ks = Except.ok sel) :
    ∃ sel', SelectionResolver.resolve fuel sg tn ks' = Except.ok sel'
      ∧ sel.equals sel' = true := by
  rw [SelectionResolver.resolve] at h ⊢
  cases hat : assocGet sg.types tn with
  | none =>
    rw [hat] at h
    exact absurd h (by simp)
  | some ts =>
    rw [hat] at h
    dsimp only at h ⊢
    rw [hp] at h
    rw [hp', eBind_ok]
    rw [eBind_ok] at h
    rcases eBind_inv h with ⟨nodes, hn, hok⟩
    cases hok
    rw [resolveSelectionSetNode_perm fuel sg tn hperm hnd nodes hn, eBind_ok]
    refine ⟨⟨tn, ks', nodes⟩, rfl, ?_⟩
    simp only [Selection.equals]
    rw [if_neg (by simp)]
    by_cases hks : (ks == ks') = true
    · rw [if_pos hks]
    · rw [if_neg hks]
      exact selectionSetEqual_refl nodes

/-- Witness for C5 (amended): `"x y"` and `"y x"` against type `U` of
`demoSubT` resolve to `equals`-equal Selections. -/
theorem claim5_amended_witness :
    ∃ sel', SelectionResolver.resolve 5 demoSubT "U" "y x" = Except.ok sel'
      ∧ Selection.equals
          ⟨"U", "x y", [SelectionNode.field "U" "x" none,
                        SelectionNode.field "U" "y" none]⟩ sel' = true :=
  claim5_amended 5 demoSubT "U" "x y" "y x"
    [ASTSelection.field "x" none, ASTSelection.field "y" none]
    [ASTSelection.field "y" none, ASTSelection.field "x" none]
    ⟨"U", "x y", [SelectionNode.field "U" "x" none, SelectionNode.field "U" "y" none]⟩
    (by rfl) (by rfl) (SetPerm.swap _ _ _)
    (by simp [nodupDeepList, nodupDeepAux, nodupDeepNode, topFieldNames, topName1,
      listNodupB])
    (by rfl)
